import Mathlib

/-!
Verification development for the pdftoaudiobook repository.

Text is modelled as `List Char` (Python `str` is a sequence of code points).
Each Python function of `app/pdf_parser.py`, `app/llm_cleaner.py` and
`app/main.py` that the properties concern is translated to an executable
Lean definition; the specific regular expressions used by the source are
translated to equivalent character-list scanners (each scanner is documented
with the regex it implements).
-/

namespace PdfToAudiobook

/-- Python `str.isspace` / regex `\s` character set.  Covers the ASCII
whitespace control characters, the information separators 0x1C-0x1F, and the
Unicode whitespace code points recognised by CPython. -/
def pyIsSpace (c : Char) : Bool :=
  (0x09 ≤ c.toNat && c.toNat ≤ 0x0D) || c.toNat == 0x20 ||
  (0x1C ≤ c.toNat && c.toNat ≤ 0x1F) || c.toNat == 0x85 || c.toNat == 0xA0 ||
  c.toNat == 0x1680 || (0x2000 ≤ c.toNat && c.toNat ≤ 0x200A) ||
  c.toNat == 0x2028 || c.toNat == 0x2029 || c.toNat == 0x202F ||
  c.toNat == 0x205F || c.toNat == 0x3000

/-- Python `str.isalpha` restricted to the ASCII range, where it coincides
exactly with CPython (the ASCII alphabetic characters are exactly a-z and
A-Z).  CPython also accepts non-ASCII letters, so any theorem below that
consults this predicate on possibly non-ASCII data carries an explicit
hypothesis keeping the consulted character below 0x80, or sits in a branch
whose outcome does not depend on the predicate. -/
def pyIsAlpha (c : Char) : Bool :=
  ('a' ≤ c && c ≤ 'z') || ('A' ≤ c && c ≤ 'Z')

/-- Regex `\d` restricted to the ASCII range (CPython's `\d` also accepts
non-ASCII decimal digits; the claims under study involve only ASCII digits). -/
def pyIsDigit (c : Char) : Bool :=
  '0' ≤ c && c ≤ '9'

/-- Regex `\w` restricted to the ASCII range (only used by the dead
chapter-heading branch of `is_page_number`, whose result does not depend
on it). -/
def pyIsWord (c : Char) : Bool :=
  pyIsAlpha c || pyIsDigit c || c == '_'

/-- Printable ASCII, the class kept by `re.sub(r'[^\x20-\x7E\n]', ' ', text)`. -/
def printableAscii (c : Char) : Bool :=
  0x20 ≤ c.toNat && c.toNat ≤ 0x7E

/-- Python `str.strip()` : drop leading and trailing whitespace. -/
def pyStrip (l : List Char) : List Char :=
  ((l.dropWhile pyIsSpace).reverse.dropWhile pyIsSpace).reverse

/-- Line-boundary characters of Python `str.splitlines`. -/
def isLineBreak (c : Char) : Bool :=
  c.toNat == 0x0A || c.toNat == 0x0B || c.toNat == 0x0C || c.toNat == 0x0D ||
  c.toNat == 0x1C || c.toNat == 0x1D || c.toNat == 0x1E || c.toNat == 0x85 ||
  c.toNat == 0x2028 || c.toNat == 0x2029

/-- Python `str.splitlines()` : split at line boundaries, treating `\r\n` as a
single boundary; a trailing boundary does not produce a final empty line. -/
def pySplitlines : List Char → List (List Char)
  | [] => []
  | '\r' :: '\n' :: rest => [] :: pySplitlines rest
  | c :: rest =>
    if isLineBreak c then
      [] :: pySplitlines rest
    else
      match pySplitlines rest with
      | [] => [[c]]
      | l :: ls => (c :: l) :: ls

/-- Python `"\n".join(lines)` on the character-list representation. -/
def joinNl (ls : List (List Char)) : List Char :=
  List.intercalate ['\n'] ls

/-- Regex `re.fullmatch(r'\d{1,4}', line)` : one to four decimal digits. -/
def digitsPat (l : List Char) : Bool :=
  l.all pyIsDigit && decide (1 ≤ l.length) && decide (l.length ≤ 4)

/-- Character class `[ivxlcdmIVXLCDM]` of the Roman-numeral pattern. -/
def romanChar (c : Char) : Bool :=
  c == 'i' || c == 'v' || c == 'x' || c == 'l' || c == 'c' || c == 'd' ||
  c == 'm' || c == 'I' || c == 'V' || c == 'X' || c == 'L' || c == 'C' ||
  c == 'D' || c == 'M'

/-- Regex `re.fullmatch(r'[ivxlcdmIVXLCDM]{1,6}', line)`. -/
def romanPat (l : List Char) : Bool :=
  l.all romanChar && decide (1 ≤ l.length) && decide (l.length ≤ 6)

/-- Character class `[-–|]` (dash, en dash, pipe). -/
def dashPipe (c : Char) : Bool :=
  c == '-' || c.toNat == 0x2013 || c == '|'

/-- Regex `re.fullmatch(r'[-–|]?\s*\d{1,4}\s*[-–|]?', line)`.  The three
character classes are pairwise disjoint, so the greedy left-to-right reading
is exact. -/
def dashNumPat (l : List Char) : Bool :=
  let l1 := match l with
    | c :: rest => if dashPipe c then rest else l
    | [] => l
  let l2 := l1.dropWhile pyIsSpace
  let digits := l2.takeWhile pyIsDigit
  let l3 := l2.dropWhile pyIsDigit
  let l4 := l3.dropWhile pyIsSpace
  let l5 := match l4 with
    | c :: rest => if dashPipe c then rest else l4
    | [] => l4
  decide (1 ≤ digits.length) && decide (digits.length ≤ 4) && l5.isEmpty

/-- Character class `[-_=~.*•·\s]` of the decorative-line pattern. -/
def decorativeChar (c : Char) : Bool :=
  c == '-' || c == '_' || c == '=' || c == '~' || c == '.' || c == '*' ||
  c.toNat == 0x2022 || c.toNat == 0xB7 || pyIsSpace c

/-- Regex `re.fullmatch(r'[-_=~.*•·\s]{3,}', stripped)`. -/
def decorativePat (l : List Char) : Bool :=
  l.all decorativeChar && decide (3 ≤ l.length)

/-- Case-insensitive comparison of one character against an ASCII letter
given in both cases, as `re.IGNORECASE` treats the literal letters of the
pattern. -/
def ciChar (c lower upper : Char) : Bool :=
  c == lower || c == upper

/-- Matches one of the words `chapter`, `section`, `part`, `book`,
case-insensitively, returning the remainder of the line.  The four
alternatives begin with pairwise distinct letters, so at most one can match
at a given position and the backtracking order is immaterial. -/
def chapterWord (l : List Char) : Option (List Char) :=
  match l with
  | c1 :: c2 :: c3 :: c4 :: c5 :: c6 :: c7 :: rest =>
    if ciChar c1 'c' 'C' && ciChar c2 'h' 'H' && ciChar c3 'a' 'A' &&
       ciChar c4 'p' 'P' && ciChar c5 't' 'T' && ciChar c6 'e' 'E' &&
       ciChar c7 'r' 'R' then some rest
    else if ciChar c1 's' 'S' && ciChar c2 'e' 'E' && ciChar c3 'c' 'C' &&
       ciChar c4 't' 'T' && ciChar c5 'i' 'I' && ciChar c6 'o' 'O' &&
       ciChar c7 'n' 'N' then some rest
    else if ciChar c1 'p' 'P' && ciChar c2 'a' 'A' && ciChar c3 'r' 'R' &&
       ciChar c4 't' 'T' then some (c5 :: c6 :: c7 :: rest)
    else if ciChar c1 'b' 'B' && ciChar c2 'o' 'O' && ciChar c3 'o' 'O' &&
       ciChar c4 'k' 'K' then some (c5 :: c6 :: c7 :: rest)
    else none
  | c1 :: c2 :: c3 :: c4 :: rest =>
    if ciChar c1 'p' 'P' && ciChar c2 'a' 'A' && ciChar c3 'r' 'R' &&
       ciChar c4 't' 'T' then some rest
    else if ciChar c1 'b' 'B' && ciChar c2 'o' 'O' && ciChar c3 'o' 'O' &&
       ciChar c4 'k' 'K' then some rest
    else none
  | _ => none

/-- Regex `re.fullmatch(r'(chapter|section|part|book)\s+[\w\s]{1,30}', line,
re.IGNORECASE)`.  This feeds only the dead branch of `is_page_number`.
Since `\s` is contained in `[\w\s]`, the backtracking engine may shift up to
all but one of the whitespace characters after the keyword into the
`[\w\s]{1,30}` body; the side condition below reflects that. -/
def chapterPat (l : List Char) : Bool :=
  match chapterWord l with
  | some rest =>
    let ws := rest.takeWhile pyIsSpace
    let body := rest.dropWhile pyIsSpace
    decide (1 ≤ ws.length) && body.all (fun c => pyIsWord c || pyIsSpace c) &&
      ((decide (1 ≤ body.length) && decide (body.length ≤ 30)) ||
        (body.isEmpty && decide (2 ≤ ws.length)))
  | none => false

/-- Translation of `is_page_number` from `app/pdf_parser.py` (lines 146-160).
The chapter-heading branch returns `False`, as does the fall-through, so it is
kept only for structural faithfulness. -/
def is_page_number (line : List Char) : Bool :=
  if digitsPat line then true
  else if romanPat line then true
  else if dashNumPat line then true
  else if chapterPat line then false
  else false

/-- One iteration of the per-line loop of `clean_text` (lines 97-117 of
`app/pdf_parser.py`): `some l` means the value `l` is appended to
`cleaned_lines`, `none` means the line is skipped.  Blank lines contribute an
empty placeholder; kept lines are appended unstripped. -/
def processLine (line : List Char) : Option (List Char) :=
  match pyStrip line with
  | [] => some []
  | c :: cs =>
    if is_page_number (c :: cs) then none
    else if decide ((c :: cs).length ≤ 2) &&
        !pyIsAlpha ((c :: cs).getLast (List.cons_ne_nil c cs)) then none
    else if decorativePat (c :: cs) then none
    else some line

/-- Effect of `re.sub(r'-\n', '', text)` : delete each non-overlapping
occurrence of a hyphen immediately followed by a newline, scanning left to
right. -/
def subHyphenNl : List Char → List Char
  | '-' :: '\n' :: rest => subHyphenNl rest
  | c :: rest => c :: subHyphenNl rest
  | [] => []

/-- Effect of `re.sub(r'(?<!\n)\n(?!\n)', ' ', text)` : a newline neither
preceded nor followed by a newline becomes a space.  The flag records whether
the previous character of the original text was a newline (the lookbehind
inspects the original text, not the replacement). -/
def jsnAux : Bool → List Char → List Char
  | _, [] => []
  | prev, c :: rest =>
    if c = '\n' then
      (if prev || rest.head? == some '\n' then '\n' else ' ') :: jsnAux true rest
    else c :: jsnAux false rest

def joinSingleNl (l : List Char) : List Char := jsnAux false l

/-- Effect of `re.sub(r'\n{3,}', '\n\n', text)` : each maximal run of three
or more newlines is replaced by exactly two.  The counter is the number of
newlines of the current run already read. -/
def cnAux : Nat → List Char → List Char
  | _, [] => []
  | n, c :: rest =>
    if c = '\n' then
      if 2 ≤ n then cnAux (n + 1) rest else '\n' :: cnAux (n + 1) rest
    else c :: cnAux 0 rest

def collapseNl (l : List Char) : List Char := cnAux 0 l

/-- Effect of the four `str.replace` calls normalising the smart quotes
U+201C, U+201D, U+2018, U+2019 to plain ASCII quotes.  The four targets are
distinct single characters and neither replacement is a target, so the
sequential replaces amount to one character map. -/
def normalizeQuote (c : Char) : Char :=
  if c.toNat == 0x201C || c.toNat == 0x201D then '"'
  else if c.toNat == 0x2018 || c.toNat == 0x2019 then '\''
  else c

def normalizeQuotes (l : List Char) : List Char := l.map normalizeQuote

/-- Effect of `re.sub(r'[^\x20-\x7E\n]', ' ', text)` : every character
outside printable ASCII other than the newline becomes a space. -/
def toPrintable (l : List Char) : List Char :=
  l.map fun c => if printableAscii c || c == '\n' then c else ' '

/-- Effect of `re.sub(r' {2,}', ' ', text)` : each maximal run of two or more
spaces is replaced by one.  The flag records whether the previous character
was a space. -/
def csAux : Bool → List Char → List Char
  | _, [] => []
  | prev, c :: rest =>
    if c = ' ' then (if prev then [] else [' ']) ++ csAux true rest
    else c :: csAux false rest

def collapseSpaces (l : List Char) : List Char := csAux false l

/-- Translation of `clean_text` from `app/pdf_parser.py` (lines 92-143):
per-line filtering, hyphenation repair, soft line join, paragraph-break
collapse, smart-quote normalisation, control-character removal, space
collapse, and a final strip. -/
def clean_text (text : List Char) : List Char :=
  let cleaned_lines := (pySplitlines text).filterMap processLine
  pyStrip (collapseSpaces (toPrintable (normalizeQuotes
    (collapseNl (joinSingleNl (subHyphenNl (joinNl cleaned_lines)))))))

/-- Translation of `remove_repeated_lines` from `app/pdf_parser.py` (lines
59-89).  The `Counter` built there increments, for each page, once per
distinct non-empty stripped line of that page; its final count for a line is
therefore the number of pages on which the line occurs. -/
def pageCount (s : List Char) (pages : List (List Char)) : Nat :=
  pages.countP fun page => (pySplitlines page).any fun l => pyStrip l = s

/-- Membership test of the `repeated` set: non-empty stripped lines whose
page count is at least `max(3, len(pages) * 0.20)`.  For the page counts at
which this code can run, the comparison of the integer count against the
IEEE-754 product `len(pages) * 0.20` coincides with the exact comparison
`count ≥ len(pages) / 5`: when `len(pages)` is a multiple of 5 the product
rounds to the exact integer (the error of the representation of 0.2 is below
half an ulp of the result), and otherwise the product differs from the
rational `len(pages) / 5` by far less than its distance (at least 1/5) to the
nearest integer.  The test is therefore expressed over the integers. -/
def isRepeated (pages : List (List Char)) (s : List Char) : Bool :=
  !s.isEmpty && decide (3 ≤ pageCount s pages) &&
    decide (pages.length ≤ 5 * pageCount s pages)

def remove_repeated_lines (pages : List (List Char)) : List (List Char) :=
  if pages.length < 5 then pages
  else pages.map fun page =>
    joinNl ((pySplitlines page).filter fun line => !isRepeated pages (pyStrip line))

/-- Terminator test of the sentence-splitting regex: `[.!?]`. -/
def isTerminator (c : Char) : Bool :=
  c == '.' || c == '!' || c == '?'

/-- Effect of `re.split(r'(?<=[.!?])\s+', text)` : split after a terminator
followed by whitespace, consuming the maximal whitespace run as the
separator.  `sep` records that the scanner is inside a separator run, `prevT`
that the previous character was a terminator, and `acc` holds the current
sentence reversed. -/
def ssAux (sep : Bool) (prevT : Bool) (acc : List Char) : List Char → List (List Char)
  | [] => [acc.reverse]
  | c :: rest =>
    if sep then
      if pyIsSpace c then ssAux true false acc rest
      else ssAux false (isTerminator c) [c] rest
    else
      if prevT && pyIsSpace c then acc.reverse :: ssAux true false [] rest
      else ssAux false (isTerminator c) (c :: acc) rest

def splitSentences (text : List Char) : List (List Char) :=
  ssAux false false [] text

/-- Translation of the hard-split loop of `chunk_text`:
`[sentence[i:i + max_chars] for i in range(0, len(sentence), max_chars)]`.
`range(0, n, step)` has `⌈n / step⌉` elements.  (For `max_chars = 0` Python
would raise `ValueError`; the claims concern positive `max_chars` only.) -/
def hardSplit (s : List Char) (max_chars : Nat) : List (List Char) :=
  (List.range ((s.length + max_chars - 1) / max_chars)).map fun i =>
    (s.drop (i * max_chars)).take max_chars

/-- One iteration of the accumulation loop of `chunk_text` (lines 169-179 of
`app/pdf_parser.py`); the state is `(chunks, current)`.  Note that the
hard-split branch does not reset `current`, exactly as in the source. -/
def chunkStep (max_chars : Nat) (st : List (List Char) × List Char)
    (sentence : List Char) : List (List Char) × List Char :=
  let chunks := st.1
  let current := st.2
  if current.length + sentence.length + 1 ≤ max_chars then
    (chunks, current ++ (if current.isEmpty then [] else [' ']) ++ sentence)
  else
    let chunks := if current.isEmpty then chunks else chunks ++ [pyStrip current]
    if max_chars < sentence.length then
      (chunks ++ hardSplit sentence max_chars, current)
    else
      (chunks, sentence)

/-- Translation of `chunk_text` from `app/pdf_parser.py` (lines 163-184). -/
def chunk_text (text : List Char) (max_chars : Nat) : List (List Char) :=
  let st := (splitSentences text).foldl (chunkStep max_chars) ([], [])
  let chunks := if st.2.isEmpty then st.1 else st.1 ++ [pyStrip st.2]
  chunks.filter fun c => !(pyStrip c).isEmpty

/-- Translation of `_clean_chunk` from `app/llm_cleaner.py` (lines 32-48):
the outcome argument models the Groq call: `none` an exception raised by
`client.chat.completions.create`, `some r` a success whose message content
is `r`;
on success the stripped response is returned unless it is empty, in which
case, as on any exception, the original text is returned. -/
def clean_chunk (text : List Char) (outcome : Option (List Char)) : List Char :=
  match outcome with
  | none => text
  | some response =>
    let cleaned := pyStrip response
    if cleaned.isEmpty then text else cleaned

/-- State of one run of `clean_chunks_with_llm`: the `results` list being
filled in place, and the successive first arguments passed to
`progress_callback`. -/
structure LlmRun where
  results : List (List Char)
  calls : List Nat

/-- Translation of the inner coroutine `process(i, chunk)` of
`clean_chunks_with_llm` (lines 68-71): store the cleaned chunk at index `i`,
then invoke the progress callback with first argument `i + 1`. -/
def llmProcess (chunks : List (List Char)) (outcome : Nat → Option (List Char))
    (st : LlmRun) (i : Nat) : LlmRun :=
  { results := st.results.set i (clean_chunk (chunks.getD i []) (outcome i)),
    calls := st.calls ++ [i + 1] }

/-- Translation of `clean_chunks_with_llm` (lines 51-74) under a completion
order: `asyncio.gather` starts one `process(i, chunk)` per chunk and the
coroutines finish in some order `order`, which (subject to the admission
semaphore) can be any permutation of the indices; the state evolves by
`llmProcess` in that order.  With fewer than six chunks every order is
feasible, since all tasks are admitted at once. -/
def llmRun (chunks : List (List Char)) (outcome : Nat → Option (List Char))
    (order : List Nat) : LlmRun :=
  order.foldl (llmProcess chunks outcome) ⟨List.replicate chunks.length [], []⟩

/-- Translation of `clean_chunks_with_llm` including the credential guard
(lines 60-61): with no `GROQ_API_KEY` the input list is returned unchanged
before any client is created or any call is attempted. -/
def clean_chunks_with_llm (hasKey : Bool) (chunks : List (List Char))
    (outcome : Nat → Option (List Char)) (order : List Nat) : List (List Char) :=
  if hasKey then (llmRun chunks outcome order).results else chunks

/-- Checker for the claim that every newline of a cleaned text is part of an
exactly-double paragraph break: scanning left to right, `k` is the length of
the newline run immediately before the current position; a run may only end
(at a non-newline character or at the end of text) with length 0 or exactly
2, and may never grow beyond 2. -/
def nlRunsAux : Nat → List Char → Bool
  | k, [] => decide (k = 0 ∨ k = 2)
  | k, c :: rest =>
    if c = '\n' then decide (k < 2) && nlRunsAux (k + 1) rest
    else decide (k = 0 ∨ k = 2) && nlRunsAux 0 rest

/-- Every maximal newline run of `l` has length exactly two. -/
def paragraphBreaksOnly (l : List Char) : Bool := nlRunsAux 0 l

/-- Checker for the intermediate state after the soft line join: every
newline has an adjacent newline.  The flag records whether the previous
character is a newline. -/
def noIsoAux : Bool → List Char → Bool
  | _, [] => true
  | prev, c :: rest =>
    if c = '\n' then (prev || rest.head? == some '\n') && noIsoAux true rest
    else noIsoAux false rest

def noIsolatedNl (l : List Char) : Bool := noIsoAux false l

/-- Checker: no hyphen immediately followed by a newline.  The flag records
whether the previous character was a hyphen. -/
def nhAux : Bool → List Char → Bool
  | _, [] => true
  | prevDash, c :: rest =>
    if c = '\n' && prevDash then false else nhAux (c == '-') rest

def noHyphenNl (l : List Char) : Bool := nhAux false l

/-- Checker: no two adjacent spaces.  The flag records whether the previous
character was a space. -/
def ntsAux : Bool → List Char → Bool
  | _, [] => true
  | prev, c :: rest =>
    if c = ' ' then !prev && ntsAux true rest else ntsAux false rest

def noTwoSpaces (l : List Char) : Bool := ntsAux false l

inductive JobStatus
  | processing
  | done
  | error
deriving DecidableEq

inductive Phase
  | extracting
  | cleaning
  | converting
  | merging
deriving DecidableEq

/-- The mutable job record of `app/main.py` (the fields `_run_conversion`
touches).  The `progress` field holds the value of its most recent reset;
the per-chunk callback values are modelled by `LlmRun.calls`. -/
structure Job where
  status : JobStatus
  phase : Phase
  progress : Nat
  total : Nat
  errMsg : Option (List Char)
deriving DecidableEq

/-- Outcomes of the awaited collaborators of `_run_conversion`.  For each
stage, `Except.error e` models an exception with message `e` propagating out
of that stage, `Except.ok` its successful result.  `unlinkRaises` models
`pdf_path.unlink()` raising `OSError` in the `finally` block. -/
structure ConvEnv where
  extractResult : Except (List Char) (List Char)
  llmResult : Except (List Char) (List (List Char))
  ttsResult : Except (List Char) (List (List Char))
  mergeResult : Except (List Char) Unit
  unlinkRaises : Bool

/-- The `finally` block of `_run_conversion` (lines 161-165): one deletion
attempt for the source file; an `OSError` is caught and swallowed, so the
job record is returned unaltered whether or not the deletion raised.  The
second component counts deletion attempts. -/
def finalizeJob (_unlinkRaises : Bool) (j : Job) : Job × Nat :=
  (j, 1)

def noReadableMsg : List Char :=
  "No readable text found in the document.".toList

/-- Translation of `_run_conversion` from `app/main.py` (lines 119-165):
extract, test for readable text, chunk, LLM-clean, synthesise, merge, with
the `except` clause turning any stage exception into terminal error state
and the `finally` clause deleting the source file. -/
def run_conversion (env : ConvEnv) : Job × Nat :=
  let j0 : Job :=
    { status := .processing, phase := .extracting, progress := 0, total := 0,
      errMsg := none }
  match env.extractResult with
  | .error e => finalizeJob env.unlinkRaises { j0 with status := .error, errMsg := some e }
  | .ok text =>
    if (pyStrip text).isEmpty then
      finalizeJob env.unlinkRaises
        { j0 with status := .error, errMsg := some noReadableMsg }
    else
      let chunks := chunk_text text 3000
      let j2 : Job := { j0 with total := chunks.length, phase := .cleaning, progress := 0 }
      match env.llmResult with
      | .error e => finalizeJob env.unlinkRaises { j2 with status := .error, errMsg := some e }
      | .ok _cleaned =>
        let j3 : Job := { j2 with phase := .converting, progress := 0 }
        match env.ttsResult with
        | .error e => finalizeJob env.unlinkRaises { j3 with status := .error, errMsg := some e }
        | .ok _files =>
          let j4 : Job := { j3 with phase := .merging }
          match env.mergeResult with
          | .error e => finalizeJob env.unlinkRaises { j4 with status := .error, errMsg := some e }
          | .ok _ => finalizeJob env.unlinkRaises { j4 with status := .done }

lemma pyStrip_length_le (l : List Char) : (pyStrip l).length ≤ l.length := by
  unfold pyStrip
  calc ((l.dropWhile pyIsSpace).reverse.dropWhile pyIsSpace).reverse.length
      = ((l.dropWhile pyIsSpace).reverse.dropWhile pyIsSpace).length := by
        rw [List.length_reverse]
    _ ≤ (l.dropWhile pyIsSpace).reverse.length :=
        ((l.dropWhile pyIsSpace).reverse.dropWhile_sublist pyIsSpace).length_le
    _ = (l.dropWhile pyIsSpace).length := by rw [List.length_reverse]
    _ ≤ l.length := (l.dropWhile_sublist pyIsSpace).length_le

lemma hardSplit_nil (m : Nat) : hardSplit [] m = [] := by
  unfold hardSplit
  cases m with
  | zero => rfl
  | succ k =>
    rw [List.length_nil, show 0 + (k + 1) - 1 = k by omega,
      Nat.div_eq_of_lt (Nat.lt_succ_self k)]
    rfl

lemma hardSplit_window_le (s : List Char) (m : Nat) :
    ∀ w ∈ hardSplit s m, w.length ≤ m := by
  intro w hw
  obtain ⟨i, _, rfl⟩ := List.mem_map.mp hw
  rw [List.length_take]
  exact min_le_left _ _

lemma hardSplit_cons (s : List Char) (m : Nat) (hm : 1 ≤ m) (hs : s ≠ []) :
    hardSplit s m = s.take m :: hardSplit (s.drop m) m := by
  have hL : 1 ≤ s.length := List.length_pos.mpr hs
  have key : (s.length + m - 1) / m = (s.length - 1) / m + 1 := by
    rw [show s.length + m - 1 = (s.length - 1) + m by omega,
      Nat.add_div_right _ (by omega)]
  have key2 : ((s.drop m).length + m - 1) / m = (s.length - 1) / m := by
    rw [List.length_drop]
    rcases Nat.lt_or_ge s.length m with hlt | hge
    · rw [Nat.sub_eq_zero_of_le (Nat.le_of_lt hlt), Nat.zero_add,
        Nat.div_eq_of_lt (by omega), Nat.div_eq_of_lt (by omega)]
    · congr 1
      omega
  have hcount : (s.length + m - 1) / m = ((s.drop m).length + m - 1) / m + 1 := by
    rw [key, key2]
  unfold hardSplit
  rw [hcount, List.range_succ_eq_map, List.map_cons]
  congr 1
  · rw [Nat.zero_mul, List.drop_zero]
  · rw [List.map_map]
    apply List.map_congr_left
    intro i _
    show (s.drop (i.succ * m)).take m = ((s.drop m).drop (i * m)).take m
    rw [List.drop_drop, Nat.succ_mul, Nat.add_comm (i * m) m]

lemma hardSplit_flatten (m : Nat) (hm : 1 ≤ m) :
    ∀ s : List Char, (hardSplit s m).flatten = s := by
  suffices h : ∀ (n : Nat) (s : List Char), s.length = n →
      (hardSplit s m).flatten = s from fun s => h s.length s rfl
  intro n
  induction n using Nat.strong_induction_on with
  | _ n ih =>
    intro s hn
    cases hsn : s with
    | nil => rw [hardSplit_nil]; rfl
    | cons a t =>
      rw [← hsn]
      have hs : s ≠ [] := by rw [hsn]; exact List.cons_ne_nil a t
      have hL : 1 ≤ s.length := List.length_pos.mpr hs
      rw [hardSplit_cons s m hm hs, List.flatten_cons]
      have hlt : (s.drop m).length < n := by
        rw [List.length_drop]
        omega
      rw [ih (s.drop m).length hlt (s.drop m) rfl, List.take_append_drop]

lemma hardSplit_dropLast (m : Nat) (hm : 1 ≤ m) :
    ∀ s : List Char, ∀ w ∈ (hardSplit s m).dropLast, w.length = m := by
  suffices h : ∀ (n : Nat) (s : List Char), s.length = n →
      ∀ w ∈ (hardSplit s m).dropLast, w.length = m from fun s => h s.length s rfl
  intro n
  induction n using Nat.strong_induction_on with
  | _ n ih =>
    intro s hn
    cases hsn : s with
    | nil => rw [hardSplit_nil]; intro w hw; simp at hw
    | cons a t =>
      rw [← hsn]
      have hs : s ≠ [] := by rw [hsn]; exact List.cons_ne_nil a t
      have hL : 1 ≤ s.length := List.length_pos.mpr hs
      rw [hardSplit_cons s m hm hs]
      cases hdrop : s.drop m with
      | nil =>
        rw [hardSplit_nil]
        intro w hw
        simp at hw
      | cons b u =>
        rw [← hdrop]
        have hne : hardSplit (s.drop m) m ≠ [] := by
          rw [hardSplit_cons (s.drop m) m hm (by rw [hdrop]; exact List.cons_ne_nil b u)]
          exact List.cons_ne_nil _ _
        rw [List.dropLast_cons_of_ne_nil hne]
        intro w hw
        rcases List.mem_cons.mp hw with hw | hw
        · subst hw
          rw [List.length_take]
          have hmle : m ≤ s.length := by
            by_contra hcon
            rw [List.drop_eq_nil_of_le (by omega)] at hdrop
            exact List.cons_ne_nil b u hdrop.symm
          omega
        · have hlt : (s.drop m).length < n := by
            rw [List.length_drop]
            omega
          exact ih (s.drop m).length hlt (s.drop m) rfl w hw

/-- Invariant of the accumulation loop of `chunk_text`: every flushed chunk
and the running buffer stay within `max_chars` characters. -/
lemma chunkStep_invariant (m : Nat) (chunks : List (List Char))
    (current : List Char) (s : List Char) (h1 : ∀ c ∈ chunks, c.length ≤ m)
    (h2 : current.length ≤ m) :
    (∀ c ∈ (chunkStep m (chunks, current) s).1, c.length ≤ m) ∧
      (chunkStep m (chunks, current) s).2.length ≤ m := by
  unfold chunkStep
  dsimp only
  by_cases hfit : current.length + s.length + 1 ≤ m
  · rw [if_pos hfit]
    dsimp only
    refine ⟨h1, ?_⟩
    by_cases hemp : current.isEmpty
    · rw [if_pos hemp]
      rw [List.isEmpty_iff] at hemp
      subst hemp
      rw [List.nil_append, List.nil_append]
      rw [List.length_nil] at hfit
      omega
    · rw [if_neg hemp]
      rw [List.length_append, List.length_append, List.length_cons,
        List.length_nil]
      omega
  · rw [if_neg hfit]
    by_cases hhard : m < s.length
    · rw [if_pos hhard]
      dsimp only
      refine ⟨?_, h2⟩
      intro c hc
      rcases List.mem_append.mp hc with hc | hc
      · by_cases hemp : current.isEmpty
        · rw [if_pos hemp] at hc
          exact h1 c hc
        · rw [if_neg hemp] at hc
          rcases List.mem_append.mp hc with hc | hc
          · exact h1 c hc
          · rcases List.mem_singleton.mp hc with rfl
            exact le_trans (pyStrip_length_le current) h2
      · exact hardSplit_window_le s m c hc
    · rw [if_neg hhard]
      dsimp only
      refine ⟨?_, by omega⟩
      intro c hc
      by_cases hemp : current.isEmpty
      · rw [if_pos hemp] at hc
        exact h1 c hc
      · rw [if_neg hemp] at hc
        rcases List.mem_append.mp hc with hc | hc
        · exact h1 c hc
        · rcases List.mem_singleton.mp hc with rfl
          exact le_trans (pyStrip_length_le current) h2

lemma chunkFold_invariant (m : Nat) :
    ∀ (sentences : List (List Char)) (st : List (List Char) × List Char),
      (∀ c ∈ st.1, c.length ≤ m) → st.2.length ≤ m →
      (∀ c ∈ (sentences.foldl (chunkStep m) st).1, c.length ≤ m) ∧
        (sentences.foldl (chunkStep m) st).2.length ≤ m := by
  intro sentences
  induction sentences with
  | nil => intro st h1 h2; exact ⟨h1, h2⟩
  | cons s rest ih =>
    rintro ⟨chunks, current⟩ h1 h2
    rw [List.foldl_cons]
    have := chunkStep_invariant m chunks current s h1 h2
    exact ih _ this.1 this.2

/-- C5: for positive `max_chars`, every chunk returned by `chunk_text` is
non-empty after stripping and at most `max_chars` characters long; and an
oversized sentence is hard-split into consecutive windows that concatenate
back to the sentence (so their lengths sum exactly to its length), each
window at most `max_chars` long and all but the last exactly `max_chars`
long. -/
theorem chunk_text_bounded_nonempty (text : List Char) (m : Nat) (hm : 1 ≤ m) :
    (∀ c ∈ chunk_text text m, pyStrip c ≠ [] ∧ c.length ≤ m) ∧
    (∀ s : List Char, m < s.length →
      (hardSplit s m).flatten = s ∧
      ((hardSplit s m).map List.length).sum = s.length ∧
      (∀ w ∈ hardSplit s m, w.length ≤ m) ∧
      (∀ w ∈ (hardSplit s m).dropLast, w.length = m)) := by
  constructor
  · intro c hc
    unfold chunk_text at hc
    have hmem := List.mem_filter.mp hc
    have hinv := chunkFold_invariant m (splitSentences text) ([], [])
      (by intro c hc; simp at hc) (by simp)
    constructor
    · have := hmem.2
      simpa [List.isEmpty_iff] using this
    · rcases hsplit : ((splitSentences text).foldl (chunkStep m) ([], [])) with ⟨chunks, current⟩
      rw [hsplit] at hinv hmem
      dsimp at hinv hmem
      by_cases hemp : current.isEmpty
      · rw [if_pos hemp] at hmem
        exact hinv.1 c hmem.1
      · rw [if_neg hemp] at hmem
        rcases List.mem_append.mp hmem.1 with hc1 | hc1
        · exact hinv.1 c hc1
        · rcases List.mem_singleton.mp hc1 with rfl
          exact le_trans (pyStrip_length_le current) hinv.2
  · intro s hs
    have hne : s ≠ [] := by
      intro hnil
      rw [hnil] at hs
      exact absurd hs (by simp)
    have hf := hardSplit_flatten m hm s
    refine ⟨hf, ?_, hardSplit_window_le s m, hardSplit_dropLast m hm s⟩
    rw [← List.length_flatten, hf]

/-- C5 witness: `max_chars = 3` on a text with an oversized sentence. -/
theorem chunk_text_bounded_nonempty_witness :
    (∀ c ∈ chunk_text "ab. cdefg".toList 3, pyStrip c ≠ [] ∧ c.length ≤ 3) ∧
      (hardSplit "cdefg".toList 3).flatten = "cdefg".toList :=
  ⟨(chunk_text_bounded_nonempty "ab. cdefg".toList 3 (by decide)).1,
    ((chunk_text_bounded_nonempty "ab. cdefg".toList 3 (by decide)).2
      "cdefg".toList (by decide)).1⟩

lemma llmFold_length (chunks : List (List Char)) (outcome : Nat → Option (List Char)) :
    ∀ (order : List Nat) (st : LlmRun),
      ((order.foldl (llmProcess chunks outcome) st).results).length = st.results.length := by
  intro order
  induction order with
  | nil => intro st; rfl
  | cons a l ih =>
    intro st
    rw [List.foldl_cons, ih]
    simp [llmProcess]

lemma llmFold_not_mem (chunks : List (List Char)) (outcome : Nat → Option (List Char))
    (j : Nat) : ∀ (order : List Nat) (st : LlmRun), j ∉ order →
      ((order.foldl (llmProcess chunks outcome) st).results)[j]? = st.results[j]? := by
  intro order
  induction order with
  | nil => intro st _; rfl
  | cons a l ih =>
    intro st hj
    rw [List.foldl_cons, ih _ (fun hm => hj (List.mem_cons_of_mem a hm))]
    have hne : a ≠ j := fun he => hj (by rw [← he]; exact List.mem_cons_self a l)
    exact List.getElem?_set_ne hne

lemma llmFold_mem (chunks : List (List Char)) (outcome : Nat → Option (List Char))
    (j : Nat) (hj : j < chunks.length) : ∀ (order : List Nat) (st : LlmRun),
      j ∈ order → st.results.length = chunks.length →
      ((order.foldl (llmProcess chunks outcome) st).results)[j]? =
        some (clean_chunk (chunks.getD j []) (outcome j)) := by
  intro order
  induction order with
  | nil => intro st hm; exact absurd hm (List.not_mem_nil j)
  | cons a l ih =>
    intro st hm hlen
    rw [List.foldl_cons]
    by_cases hjl : j ∈ l
    · exact ih _ hjl (by simp [llmProcess, hlen])
    · have hja : j = a := by
        rcases List.mem_cons.mp hm with h | h
        · exact h
        · exact absurd h hjl
      subst hja
      rw [llmFold_not_mem chunks outcome j l _ hjl]
      exact List.getElem?_set_self (by rw [hlen]; exact hj)

/-- C4: with no credential the LLM stage returns its input unchanged for
every outcome function (no call is consulted); with a credential, for every
completion order that is a permutation of the chunk indices, the output has
the same length as the input and its `i`-th element is exactly
`_clean_chunk` of the `i`-th input (index-for-index correspondence); and if
every call fails the output equals the input list. -/
theorem clean_chunks_with_llm_correct (chunks : List (List Char))
    (outcome : Nat → Option (List Char)) (order : List Nat)
    (hperm : order.Perm (List.range chunks.length)) :
    clean_chunks_with_llm false chunks outcome order = chunks ∧
    (clean_chunks_with_llm true chunks outcome order).length = chunks.length ∧
    (∀ i, i < chunks.length →
      (clean_chunks_with_llm true chunks outcome order)[i]? =
        some (clean_chunk (chunks.getD i []) (outcome i))) ∧
    ((∀ i, i < chunks.length → outcome i = none) →
      clean_chunks_with_llm true chunks outcome order = chunks) := by
  have hmem : ∀ i, i < chunks.length → i ∈ order := fun i hi =>
    hperm.mem_iff.mpr (List.mem_range.mpr hi)
  have hlen : (clean_chunks_with_llm true chunks outcome order).length =
      chunks.length := by
    unfold clean_chunks_with_llm llmRun
    simp only [if_pos]
    rw [llmFold_length]
    exact List.length_replicate _ _
  have hidx : ∀ i, i < chunks.length →
      (clean_chunks_with_llm true chunks outcome order)[i]? =
        some (clean_chunk (chunks.getD i []) (outcome i)) := by
    intro i hi
    unfold clean_chunks_with_llm llmRun
    simp only [if_pos]
    exact llmFold_mem chunks outcome i hi order _ (hmem i hi)
      (List.length_replicate _ _)
  refine ⟨rfl, hlen, hidx, ?_⟩
  intro hfail
  apply List.ext_getElem?
  intro i
  by_cases hi : i < chunks.length
  · rw [hidx i hi, hfail i hi]
    unfold clean_chunk
    rw [List.getElem?_eq_getElem hi, List.getD_eq_getElem chunks [] hi]
  · have h1 : (clean_chunks_with_llm true chunks outcome order)[i]? = none := by
      rw [List.getElem?_eq_none_iff, hlen]
      omega
    have h2 : chunks[i]? = none := by
      rw [List.getElem?_eq_none_iff]
      omega
    rw [h1, h2]

/-- C4 witness: two chunks, the second call failing, completion out of
order; the output corresponds index-for-index and the no-credential run is
the identity. -/
theorem clean_chunks_with_llm_correct_witness :
    clean_chunks_with_llm false ["a".toList, "b".toList]
        (fun i => if i = 0 then some " A ".toList else none) [1, 0] =
      ["a".toList, "b".toList] ∧
    (clean_chunks_with_llm true ["a".toList, "b".toList]
        (fun i => if i = 0 then some " A ".toList else none) [1, 0])[0]? =
      some (clean_chunk ("a".toList)
        ((fun i => if i = 0 then some " A ".toList else none) 0)) :=
  ⟨(clean_chunks_with_llm_correct ["a".toList, "b".toList] _ [1, 0]
      (by decide)).1,
    (clean_chunks_with_llm_correct ["a".toList, "b".toList] _ [1, 0]
      (by decide)).2.2.1 0 (by decide)⟩

lemma ratio_iff (c n : Nat) :
    (n : ℚ) * (20 / 100) ≤ (c : ℚ) ↔ n ≤ 5 * c := by
  constructor
  · intro h
    have h5 : (n : ℚ) ≤ 5 * (c : ℚ) := by linarith
    exact_mod_cast h5
  · intro h
    have h5 : (n : ℚ) ≤ 5 * (c : ℚ) := by exact_mod_cast h
    linarith

lemma isRepeated_iff (pages : List (List Char)) (s : List Char) :
    isRepeated pages s = true ↔
      (s ≠ [] ∧ 3 ≤ pageCount s pages ∧
        (pages.length : ℚ) * (20 / 100) ≤ (pageCount s pages : ℚ)) := by
  unfold isRepeated
  simp only [Bool.and_eq_true, decide_eq_true_eq]
  constructor
  · rintro ⟨⟨hne, h3⟩, h5⟩
    refine ⟨?_, h3, (ratio_iff _ _).mpr h5⟩
    intro hnil
    rw [hnil] at hne
    simp at hne
  · rintro ⟨hne, h3, h5⟩
    refine ⟨⟨?_, h3⟩, (ratio_iff _ _).mp h5⟩
    cases hsl : s with
    | nil => exact absurd hsl hne
    | cons a t => simp

/-- C6: with fewer than five pages `remove_repeated_lines` is the identity;
otherwise it removes, from every page, exactly those lines (whole-line match
after stripping) whose page count — the number of pages on which the
stripped line occurs, each page counted once — reaches the threshold
`max(3, 0.20 × page_count)`, i.e. is at least 3 and at least a fifth of the
page count.  (The comparison of the integer count against the IEEE-754
product `page_count * 0.20` agrees with the exact rational comparison used
here; see `isRepeated`.) -/
theorem remove_repeated_lines_spec (pages : List (List Char)) :
    (pages.length < 5 → remove_repeated_lines pages = pages) ∧
    (5 ≤ pages.length →
      remove_repeated_lines pages = pages.map fun page =>
        joinNl ((pySplitlines page).filter fun line =>
          !(decide (pyStrip line ≠ [] ∧
              3 ≤ pageCount (pyStrip line) pages ∧
              (pages.length : ℚ) * (20 / 100) ≤
                (pageCount (pyStrip line) pages : ℚ))))) := by
  constructor
  · intro h
    unfold remove_repeated_lines
    rw [if_pos h]
  · intro h
    unfold remove_repeated_lines
    rw [if_neg (by omega)]
    apply List.map_congr_left
    intro page _
    congr 1
    apply List.filter_congr
    intro line _
    congr 1
    rw [Bool.eq_iff_iff, isRepeated_iff, decide_eq_true_eq]

/-- The rational-threshold filter of the specification agrees with its
integer form, which kernel evaluation can compute. -/
lemma specFilter_nat (pages : List (List Char)) :
    (pages.map fun page =>
      joinNl ((pySplitlines page).filter fun line =>
        !(decide (pyStrip line ≠ [] ∧
            3 ≤ pageCount (pyStrip line) pages ∧
            (pages.length : ℚ) * (20 / 100) ≤
              (pageCount (pyStrip line) pages : ℚ))))) =
    (pages.map fun page =>
      joinNl ((pySplitlines page).filter fun line =>
        !(decide (pyStrip line ≠ [] ∧
            3 ≤ pageCount (pyStrip line) pages ∧
            pages.length ≤ 5 * pageCount (pyStrip line) pages)))) := by
  apply List.map_congr_left
  intro page _
  congr 1
  apply List.filter_congr
  intro line _
  congr 1
  rw [decide_eq_decide]
  constructor
  · rintro ⟨a, b, c⟩
    exact ⟨a, b, (ratio_iff _ _).mp c⟩
  · rintro ⟨a, b, c⟩
    exact ⟨a, b, (ratio_iff _ _).mpr c⟩

/-- C6 witness: ten pages; the line `HEADER` appears on three of them
(threshold `max(3, 2.0) = 3`) and is removed everywhere, while `rare`
appears on only two pages and is kept. -/
theorem remove_repeated_lines_spec_witness :
    remove_repeated_lines
        ["HEADER\nalpha".toList, "HEADER\nbravo".toList,
          "HEADER\ncharlie".toList, "rare\ndelta".toList, "rare\necho".toList,
          "foxtrot".toList, "golf".toList, "hotel".toList, "india".toList,
          "juliet".toList] =
      ["alpha".toList, "bravo".toList, "charlie".toList, "rare\ndelta".toList,
        "rare\necho".toList, "foxtrot".toList, "golf".toList, "hotel".toList,
        "india".toList, "juliet".toList] :=
  ((remove_repeated_lines_spec
      ["HEADER\nalpha".toList, "HEADER\nbravo".toList, "HEADER\ncharlie".toList,
        "rare\ndelta".toList, "rare\necho".toList, "foxtrot".toList,
        "golf".toList, "hotel".toList, "india".toList, "juliet".toList]).2
    (by decide)).trans
    ((specFilter_nat
      ["HEADER\nalpha".toList, "HEADER\nbravo".toList, "HEADER\ncharlie".toList,
        "rare\ndelta".toList, "rare\necho".toList, "foxtrot".toList,
        "golf".toList, "hotel".toList, "india".toList, "juliet".toList]).trans
      (by decide))

lemma dropWhile_eq_self_of_forall (p : Char → Bool) (l : List Char)
    (h : ∀ c ∈ l, p c = false) : l.dropWhile p = l := by
  cases l with
  | nil => rfl
  | cons a as =>
    rw [List.dropWhile_cons]
    simp [h a (List.mem_cons_self a as)]

lemma pyStrip_eq_self_of_forall (l : List Char)
    (h : ∀ c ∈ l, pyIsSpace c = false) : pyStrip l = l := by
  unfold pyStrip
  rw [dropWhile_eq_self_of_forall _ _ h,
    dropWhile_eq_self_of_forall _ _ (by intro c hc; exact h c (List.mem_reverse.mp hc)),
    List.reverse_reverse]

lemma romanChar_mem {c : Char} (h : romanChar c = true) :
    c ∈ ['i', 'v', 'x', 'l', 'c', 'd', 'm', 'I', 'V', 'X', 'L', 'C', 'D', 'M'] := by
  simp only [romanChar, Bool.or_eq_true, beq_iff_eq] at h
  simp only [List.mem_cons, List.not_mem_nil, or_false]
  tauto

lemma romanChar_not_space {c : Char} (h : romanChar c = true) :
    pyIsSpace c = false := by
  have hm := romanChar_mem h
  fin_cases hm <;> decide

/-- C1 (code bug): on the failing input below with `max_chars = 5`, the
sentence `"ab."` is flushed into the chunk list when the oversized sentence
`"cdefghi"` arrives, the oversized sentence is hard-split into `"cdefg"` and
`"hi"`, and — because the hard-split branch of `chunk_text` never clears the
accumulation buffer — the already-flushed `"ab."` is emitted a second time by
the final flush.  Concatenating the chunks therefore does not reproduce the
input: content is duplicated, refuting the round-trip property. -/
theorem chunk_text_duplicates_flushed_buffer :
    chunk_text "ab. cdefghi".toList 5 =
      ["ab.".toList, "cdefg".toList, "hi".toList, "ab.".toList] := by
  decide

/-- C3 (code bug): with two chunks and the feasible completion order in
which the coroutine of index 1 finishes first (both tasks are admitted by
the semaphore at once), the progress callback receives `2` and then `1` —
the code passes `i + 1`, the completing chunk's submission index plus one,
not the count of chunks completed so far, which would be `1` then `2`.  The
sequence of reported values is not monotonically non-decreasing. -/
theorem llm_progress_callback_gets_index_not_count :
    (llmRun ["a".toList, "b".toList] (fun _ => none) [1, 0]).calls = [2, 1] ∧
      (llmRun ["a".toList, "b".toList] (fun _ => none) [1, 0]).calls ≠ [1, 2] := by
  constructor
  · decide
  · decide

lemma getLastD_eq_getLast (c d : Char) (cs : List Char) :
    (c :: cs).getLastD d = (c :: cs).getLast (List.cons_ne_nil c cs) := by
  simp [List.getLastD_eq_getLast?, List.getLast?_eq_getLast]

/-- Inversion for `chapterWord`: a match fixes the first character to one of
the keyword initials and bounds the length from below. -/
lemma chapterWord_inv {s r : List Char} (h : chapterWord s = some r) :
    ∃ c1 t, s = c1 :: t ∧ c1 ∈ ['c', 'C', 's', 'S', 'p', 'P', 'b', 'B'] ∧
      4 ≤ s.length ∧ (7 ≤ s.length ∨ c1 ∈ ['p', 'P', 'b', 'B']) := by
  unfold chapterWord at h
  split at h
  · split_ifs at h with h1 h2 h3 h4
    · simp only [ciChar, Bool.and_eq_true, Bool.or_eq_true, beq_iff_eq] at h1
      rcases h1.1.1.1.1.1.1 with rfl | rfl <;>
        exact ⟨_, _, rfl, by simp, by simp, Or.inl (by simp)⟩
    · simp only [ciChar, Bool.and_eq_true, Bool.or_eq_true, beq_iff_eq] at h2
      rcases h2.1.1.1.1.1.1 with rfl | rfl <;>
        exact ⟨_, _, rfl, by simp, by simp, Or.inl (by simp)⟩
    · simp only [ciChar, Bool.and_eq_true, Bool.or_eq_true, beq_iff_eq] at h3
      rcases h3.1.1.1 with rfl | rfl <;>
        exact ⟨_, _, rfl, by simp, by simp, by simp⟩
    · simp only [ciChar, Bool.and_eq_true, Bool.or_eq_true, beq_iff_eq] at h4
      rcases h4.1.1.1 with rfl | rfl <;>
        exact ⟨_, _, rfl, by simp, by simp, by simp⟩
  · split_ifs at h with h1 h2
    · simp only [ciChar, Bool.and_eq_true, Bool.or_eq_true, beq_iff_eq] at h1
      rcases h1.1.1.1 with rfl | rfl <;> exact ⟨_, _, rfl, by simp, by simp, by simp⟩
    · simp only [ciChar, Bool.and_eq_true, Bool.or_eq_true, beq_iff_eq] at h2
      rcases h2.1.1.1 with rfl | rfl <;> exact ⟨_, _, rfl, by simp, by simp, by simp⟩
  · exact absurd h (by simp)

/-- A line whose stripped form matches the chapter-heading pattern fails
every dropping test of the per-line filter. -/
lemma chapterPat_keeps {l : List Char} (h : chapterPat (pyStrip l) = true) :
    processLine l = some l := by
  obtain ⟨rest, hw⟩ : ∃ rest, chapterWord (pyStrip l) = some rest := by
    unfold chapterPat at h
    cases hw : chapterWord (pyStrip l) with
    | none => rw [hw] at h; simp at h
    | some rest => exact ⟨rest, rfl⟩
  obtain ⟨c1, t, hs, hc1, hlen, hbig⟩ := chapterWord_inv hw
  have hc1' : c1 = 'c' ∨ c1 = 'C' ∨ c1 = 's' ∨ c1 = 'S' ∨ c1 = 'p' ∨
      c1 = 'P' ∨ c1 = 'b' ∨ c1 = 'B' := by simpa using hc1
  have hdig : digitsPat (pyStrip l) = false := by
    unfold digitsPat
    rw [hs]
    have : pyIsDigit c1 = false := by
      rcases hc1' with rfl | rfl | rfl | rfl | rfl | rfl | rfl | rfl <;> decide
    simp [this]
  have hrom : romanPat (pyStrip l) = false := by
    unfold romanPat
    rcases hbig with hbig | hsmall
    · have : decide ((pyStrip l).length ≤ 6) = false := by
        simp only [decide_eq_false_iff_not]
        omega
      simp [this]
    · have hsmall' : c1 = 'p' ∨ c1 = 'P' ∨ c1 = 'b' ∨ c1 = 'B' := by
        simpa using hsmall
      rw [hs]
      have : romanChar c1 = false := by
        rcases hsmall' with rfl | rfl | rfl | rfl <;> decide
      simp [this]
  have hdash : dashNumPat (pyStrip l) = false := by
    unfold dashNumPat
    rw [hs]
    have h1 : dashPipe c1 = false := by
      rcases hc1' with rfl | rfl | rfl | rfl | rfl | rfl | rfl | rfl <;> decide
    have h2 : pyIsSpace c1 = false := by
      rcases hc1' with rfl | rfl | rfl | rfl | rfl | rfl | rfl | rfl <;> decide
    have h3 : pyIsDigit c1 = false := by
      rcases hc1' with rfl | rfl | rfl | rfl | rfl | rfl | rfl | rfl <;> decide
    simp [h1, List.dropWhile_cons, h2, List.takeWhile_cons, h3]
  have hdeco : decorativePat (pyStrip l) = false := by
    unfold decorativePat
    rw [hs]
    have : decorativeChar c1 = false := by
      rcases hc1' with rfl | rfl | rfl | rfl | rfl | rfl | rfl | rfl <;> decide
    simp [this]
  have hpage : is_page_number (pyStrip l) = false := by
    unfold is_page_number
    rw [hdig, hrom, hdash]
    simp [h]
  unfold processLine
  rw [hs] at hpage hdeco hlen ⊢
  simp [hpage, hdeco]
  intro hcon
  rw [List.length_cons] at hlen
  omega

/-- C7: the per-line filter of `clean_text` drops the lines whose stripped
form is a page-number pattern (1-4 digits, a 1-6 character Roman-numeral
class string, or digits with optional surrounding dash or pipe), a
decorative-only line, or a short line whose final character is ASCII and
not a letter — and always keeps lines whose stripped form matches the
chapter-heading pattern `(chapter|section|part|book)\s+[\w\s]{1,30}`
(case-insensitive).  The short-line clause carries the explicit hypothesis
that the consulted final character lies below 0x80, because CPython's
`str.isalpha` also accepts non-ASCII letters there; on that fragment the
ASCII model coincides exactly with CPython.  Concretely, `42` and `----`
are removed while `Hi` and `Chapter 3` are kept. -/
theorem per_line_filter_drops_noise_keeps_chapter (l : List Char) :
    ((digitsPat (pyStrip l) = true ∨ romanPat (pyStrip l) = true ∨
        dashNumPat (pyStrip l) = true ∨ decorativePat (pyStrip l) = true ∨
        (pyStrip l ≠ [] ∧ (pyStrip l).length ≤ 2 ∧
          ((pyStrip l).getLastD ' ').toNat < 0x80 ∧
          pyIsAlpha ((pyStrip l).getLastD ' ') = false)) →
      processLine l = none) ∧
    (chapterPat (pyStrip l) = true → processLine l = some l) ∧
    processLine "42".toList = none ∧ processLine "----".toList = none ∧
    processLine "Hi".toList = some "Hi".toList ∧
    processLine "Chapter 3".toList = some "Chapter 3".toList := by
  refine ⟨?_, chapterPat_keeps, by decide, by decide, by decide, by decide⟩
  intro hdrop
  have hne : pyStrip l ≠ [] := by
    rcases hdrop with h | h | h | h | h
    · unfold digitsPat at h
      simp only [Bool.and_eq_true, decide_eq_true_eq] at h
      intro hnil; rw [hnil] at h; simp at h
    · unfold romanPat at h
      simp only [Bool.and_eq_true, decide_eq_true_eq] at h
      intro hnil; rw [hnil] at h; simp at h
    · unfold dashNumPat at h
      simp only [Bool.and_eq_true, decide_eq_true_eq] at h
      intro hnil; rw [hnil] at h; simp at h
    · unfold decorativePat at h
      simp only [Bool.and_eq_true, decide_eq_true_eq] at h
      intro hnil; rw [hnil] at h; simp at h
    · exact h.1
  cases hs : pyStrip l with
  | nil => exact absurd hs hne
  | cons c cs =>
    rw [hs] at hdrop
    unfold processLine
    rw [hs]
    by_cases hpage : is_page_number (c :: cs) = true
    · simp [hpage]
    · have hpage' : is_page_number (c :: cs) = false := by
        simpa using hpage
      have hdig : digitsPat (c :: cs) = false := by
        unfold is_page_number at hpage'
        by_cases hd : digitsPat (c :: cs) = true
        · rw [hd] at hpage'; simp at hpage'
        · simpa using hd
      have hrom : romanPat (c :: cs) = false := by
        unfold is_page_number at hpage'
        by_cases hd : romanPat (c :: cs) = true
        · rw [hd] at hpage'; simp [hdig] at hpage'
        · simpa using hd
      have hdash : dashNumPat (c :: cs) = false := by
        unfold is_page_number at hpage'
        by_cases hd : dashNumPat (c :: cs) = true
        · rw [hd] at hpage'; simp [hdig, hrom] at hpage'
        · simpa using hd
      rcases hdrop with h | h | h | h | h
      · rw [h] at hdig; cases hdig
      · rw [h] at hrom; cases hrom
      · rw [h] at hdash; cases hdash
      · -- decorative: whether or not the short-line test also fires, the
        -- line is dropped
        simp [hpage']
        exact fun _ => h
      · -- short non-alphabetic-ending line (ASCII final character)
        simp [hpage']
        intro hn
        have hlast := h.2.2.2
        rw [getLastD_eq_getLast c ' ' cs] at hlast
        have hcs : cs.length ≤ 1 := by
          have h21 := h.2.1
          rw [List.length_cons] at h21
          omega
        exact absurd (hn hcs) (by simp [hlast])

/-- C7 witness: the chapter-keeping branch applied at the concrete line
`Section 12`, the digit branch at `7`, and the short-line branch (ASCII
final character, not a letter) at `-!`. -/
theorem per_line_filter_witness :
    processLine "Section 12".toList = some "Section 12".toList ∧
      processLine "7".toList = none ∧ processLine "-!".toList = none :=
  ⟨(per_line_filter_drops_noise_keeps_chapter "Section 12".toList).2.1 (by decide),
    (per_line_filter_drops_noise_keeps_chapter "7".toList).1 (Or.inl (by decide)),
    (per_line_filter_drops_noise_keeps_chapter "-!".toList).1
      (Or.inr (Or.inr (Or.inr (Or.inr (by decide)))))⟩

/-- C10: any non-empty line of at most six characters drawn from the Roman
numeral character class `[ivxlcdmIVXLCDM]` — including ordinary words such
as `mix`, `did`, `civil` or `I` — satisfies `is_page_number` and is dropped
by the per-line filter of `clean_text`, regardless of Roman-numeral
validity. -/
theorem roman_charclass_line_is_dropped (line : List Char) (hne : line ≠ [])
    (hlen : line.length ≤ 6) (hchars : ∀ c ∈ line, romanChar c = true) :
    is_page_number line = true ∧ processLine line = none := by
  have hroman : romanPat line = true := by
    unfold romanPat
    simp only [Bool.and_eq_true, List.all_eq_true, decide_eq_true_eq]
    refine ⟨⟨fun c hc => hchars c hc, ?_⟩, hlen⟩
    cases line with
    | nil => exact absurd rfl hne
    | cons a as => simp
  have hpage : is_page_number line = true := by
    unfold is_page_number
    by_cases hd : digitsPat line = true
    · simp [hd]
    · simp [hd, hroman]
  have hstrip : pyStrip line = line :=
    pyStrip_eq_self_of_forall line fun c hc => romanChar_not_space (hchars c hc)
  refine ⟨hpage, ?_⟩
  cases hl : line with
  | nil => exact absurd hl hne
  | cons a as =>
    rw [hl] at hstrip hpage
    unfold processLine
    rw [hstrip]
    simp [hpage]

/-- C10 witness: the ordinary English word `civil` is classified as a page
number and dropped. -/
theorem roman_charclass_line_is_dropped_witness :
    is_page_number "civil".toList = true ∧ processLine "civil".toList = none :=
  roman_charclass_line_is_dropped "civil".toList (by decide) (by decide)
    (by decide)

/-- C9: in `_run_conversion`, extracted text that is empty or
whitespace-only ends the job in terminal `error` with the no-readable-text
message, and the remaining phases are skipped (the job record does not
depend on any later stage outcome); an exception in any stage ends the job
in terminal `error` carrying that exception's message; and in every outcome
the source document is deleted exactly once, with a deletion failure
swallowed (the job record is the same whether or not the deletion raised). -/
theorem run_conversion_outcomes (env : ConvEnv) :
    (∀ text, env.extractResult = .ok text → pyStrip text = [] →
      (run_conversion env).1.status = .error ∧
      (run_conversion env).1.errMsg = some noReadableMsg ∧
      (∀ env' : ConvEnv, env'.extractResult = .ok text →
        (run_conversion env').1 = (run_conversion env).1)) ∧
    (∀ e, env.extractResult = .error e →
      (run_conversion env).1.status = .error ∧
      (run_conversion env).1.errMsg = some e) ∧
    (∀ text e, env.extractResult = .ok text → pyStrip text ≠ [] →
      env.llmResult = .error e →
      (run_conversion env).1.status = .error ∧
      (run_conversion env).1.errMsg = some e) ∧
    (∀ text cleaned e, env.extractResult = .ok text → pyStrip text ≠ [] →
      env.llmResult = .ok cleaned → env.ttsResult = .error e →
      (run_conversion env).1.status = .error ∧
      (run_conversion env).1.errMsg = some e) ∧
    (∀ text cleaned files e, env.extractResult = .ok text → pyStrip text ≠ [] →
      env.llmResult = .ok cleaned → env.ttsResult = .ok files →
      env.mergeResult = .error e →
      (run_conversion env).1.status = .error ∧
      (run_conversion env).1.errMsg = some e) ∧
    (run_conversion env).2 = 1 ∧
    (∀ b, (run_conversion { env with unlinkRaises := b }).1 =
      (run_conversion env).1) := by
  obtain ⟨ex, llm, tts, mer, ub⟩ := env
  refine ⟨?_, ?_, ?_, ?_, ?_, ?_, ?_⟩
  · intro text hx hempty
    dsimp only at hx
    subst hx
    have hcond : (pyStrip text).isEmpty = true := by rw [hempty]; rfl
    refine ⟨?_, ?_, ?_⟩
    · unfold run_conversion
      dsimp only
      rw [if_pos hcond]
      rfl
    · unfold run_conversion
      dsimp only
      rw [if_pos hcond]
      rfl
    · intro env' hx'
      obtain ⟨ex', llm', tts', mer', ub'⟩ := env'
      dsimp only at hx'
      subst hx'
      unfold run_conversion
      dsimp only
      rw [if_pos hcond, if_pos hcond]
      rfl
  · intro e hx
    dsimp only at hx
    subst hx
    exact ⟨rfl, rfl⟩
  · intro text e hx hne hllm
    dsimp only at hx hllm
    subst hx
    subst hllm
    have hcond : ¬((pyStrip text).isEmpty = true) := by
      simp only [List.isEmpty_iff]
      exact hne
    unfold run_conversion
    dsimp only
    rw [if_neg hcond]
    exact ⟨rfl, rfl⟩
  · intro text cleaned e hx hne hllm htts
    dsimp only at hx hllm htts
    subst hx
    subst hllm
    subst htts
    have hcond : ¬((pyStrip text).isEmpty = true) := by
      simp only [List.isEmpty_iff]
      exact hne
    unfold run_conversion
    dsimp only
    rw [if_neg hcond]
    exact ⟨rfl, rfl⟩
  · intro text cleaned files e hx hne hllm htts hmer
    dsimp only at hx hllm htts hmer
    subst hx
    subst hllm
    subst htts
    subst hmer
    have hcond : ¬((pyStrip text).isEmpty = true) := by
      simp only [List.isEmpty_iff]
      exact hne
    unfold run_conversion
    dsimp only
    rw [if_neg hcond]
    exact ⟨rfl, rfl⟩
  · unfold run_conversion
    dsimp only
    cases ex with
    | error e => rfl
    | ok text =>
      dsimp only
      by_cases hcond : (pyStrip text).isEmpty = true
      · rw [if_pos hcond]
        rfl
      · rw [if_neg hcond]
        cases llm with
        | error e => rfl
        | ok cleaned =>
          cases tts with
          | error e => rfl
          | ok files =>
            cases mer with
            | error e => rfl
            | ok u => rfl
  · intro b
    unfold run_conversion
    dsimp only
    cases ex with
    | error e => rfl
    | ok text =>
      dsimp only
      by_cases hcond : (pyStrip text).isEmpty = true
      · rw [if_pos hcond, if_pos hcond]
        rfl
      · rw [if_neg hcond, if_neg hcond]
        cases llm with
        | error e => rfl
        | ok cleaned =>
          cases tts with
          | error e => rfl
          | ok files =>
            cases mer with
            | error e => rfl
            | ok u => rfl

/-- C9 witness: a whitespace-only extraction ends in `error` with the
no-readable-text message, deleting the source exactly once, for an
environment whose later stages would all succeed. -/
theorem run_conversion_outcomes_witness :
    (run_conversion ⟨.ok "  \n ".toList, .ok [], .ok [], .ok (), false⟩).1.status =
        JobStatus.error ∧
      (run_conversion ⟨.ok "  \n ".toList, .ok [], .ok [], .ok (), false⟩).1.errMsg =
        some noReadableMsg ∧
      (run_conversion ⟨.ok "  \n ".toList, .ok [], .ok [], .ok (), false⟩).2 = 1 :=
  ⟨((run_conversion_outcomes ⟨.ok "  \n ".toList, .ok [], .ok [], .ok (), false⟩).1
      "  \n ".toList rfl (by decide)).1,
    ((run_conversion_outcomes ⟨.ok "  \n ".toList, .ok [], .ok [], .ok (), false⟩).1
      "  \n ".toList rfl (by decide)).2.1,
    (run_conversion_outcomes ⟨.ok "  \n ".toList, .ok [], .ok [], .ok (), false⟩).2.2.2.2.2.1⟩

lemma mem_toPrintable {c : Char} {l : List Char} (h : c ∈ toPrintable l) :
    printableAscii c = true ∨ c = '\n' := by
  obtain ⟨a, _, rfl⟩ := List.mem_map.mp h
  by_cases ha : (printableAscii a || a == '\n') = true
  · rw [if_pos ha]
    simpa using ha
  · rw [if_neg ha]
    left
    decide

lemma mem_csAux {c : Char} : ∀ (l : List Char) (prev : Bool),
    c ∈ csAux prev l → c ∈ l := by
  intro l
  induction l with
  | nil => intro prev h; exact absurd h (List.not_mem_nil c)
  | cons a rest ih =>
    intro prev h
    unfold csAux at h
    by_cases ha : a = ' '
    · rw [if_pos ha] at h
      by_cases hp : prev
      · rw [if_pos hp] at h
        rw [List.nil_append] at h
        exact List.mem_cons_of_mem a (ih true h)
      · rw [if_neg hp] at h
        rw [List.singleton_append] at h
        rcases List.mem_cons.mp h with rfl | h
        · rw [ha]
          exact List.mem_cons_self _ _
        · exact List.mem_cons_of_mem a (ih true h)
    · rw [if_neg ha] at h
      rcases List.mem_cons.mp h with rfl | h
      · exact List.mem_cons_self _ _
      · exact List.mem_cons_of_mem a (ih false h)

lemma mem_pyStrip {c : Char} {l : List Char} (h : c ∈ pyStrip l) : c ∈ l := by
  unfold pyStrip at h
  rw [List.mem_reverse] at h
  have h2 := ((l.dropWhile pyIsSpace).reverse.dropWhile_sublist pyIsSpace).subset h
  rw [List.mem_reverse] at h2
  exact (l.dropWhile_sublist pyIsSpace).subset h2

lemma jsnAux_head_nl {rest : List Char} (h : rest.head? = some '\n') :
    (jsnAux true rest).head? = some '\n' := by
  cases rest with
  | nil => cases h
  | cons c r =>
    have hc : c = '\n' := by simpa using h
    subst hc
    unfold jsnAux
    rw [if_pos rfl]
    rw [if_pos (by rw [Bool.true_or])]
    rfl

/-- After the soft line join every remaining newline is adjacent to another
newline.  The first flag is the original previous character (consulted by
the lookbehind), the second the previous character of the output. -/
lemma jsn_noIso : ∀ (l : List Char) (inPrev outPrev : Bool),
    (outPrev = true → inPrev = true) →
    (inPrev = true → outPrev = false → l.head? ≠ some '\n') →
    noIsoAux outPrev (jsnAux inPrev l) = true := by
  intro l
  induction l with
  | nil => intro _ _ _ _; rfl
  | cons c rest ih =>
    intro inPrev outPrev hoi hio
    unfold jsnAux
    by_cases hc : c = '\n'
    · rw [if_pos hc]
      have hin_out : inPrev = true → outPrev = true := by
        intro hi
        cases ho : outPrev with
        | true => rfl
        | false => exact absurd (by rw [hc]; rfl) (hio hi ho)
      by_cases hkeep : (inPrev || rest.head? == some '\n') = true
      · rw [if_pos hkeep]
        unfold noIsoAux
        rw [if_pos rfl, Bool.and_eq_true]
        constructor
        · rcases Bool.or_eq_true _ _ |>.mp hkeep with hi | hh
          · rw [hin_out hi, Bool.true_or]
          · rw [jsnAux_head_nl (by simpa using hh)]
            simp
        · exact ih true true (fun _ => rfl) (fun _ hff => absurd hff (by decide))
      · rw [if_neg hkeep]
        unfold noIsoAux
        rw [if_neg (by decide : ¬(' ' = '\n'))]
        apply ih true false (fun hff => absurd hff (by decide))
        intro _ _ hhead
        apply hkeep
        rw [Bool.or_eq_true]
        right
        rw [hhead]
        rfl
    · rw [if_neg hc]
      unfold noIsoAux
      rw [if_neg hc]
      exact ih false false (fun h => h) (fun hff => absurd hff (by decide))

/-- Collapsing newline runs of three or more to two turns text without
isolated newlines into text whose newline runs are exactly two long.  `n`
counts the newlines of the current input run already consumed; the checker
state of the output is `min n 2`. -/
lemma cnAux_runs : ∀ (l : List Char) (n : Nat) (prev : Bool),
    (prev = true ↔ 1 ≤ n) → (n = 1 → l.head? = some '\n') →
    noIsoAux prev l = true → nlRunsAux (min n 2) (cnAux n l) = true := by
  intro l
  induction l with
  | nil =>
    intro n prev _ h1 _
    unfold cnAux nlRunsAux
    rw [decide_eq_true_eq]
    match n with
    | 0 => exact Or.inl rfl
    | 1 => exact absurd (h1 rfl) (by simp)
    | (k + 2) => right; omega
  | cons c rest ih =>
    intro n prev hp h1 hiso
    unfold cnAux
    by_cases hc : c = '\n'
    · subst hc
      rw [if_pos rfl]
      unfold noIsoAux at hiso
      rw [if_pos rfl, Bool.and_eq_true] at hiso
      by_cases h2n : 2 ≤ n
      · rw [if_pos h2n]
        have hmin : min n 2 = 2 := by omega
        have hmin' : min (n + 1) 2 = 2 := by omega
        rw [hmin, ← hmin']
        apply ih (n + 1) true ⟨fun _ => by omega, fun _ => rfl⟩ (fun hh => by omega)
        exact hiso.2
      · rw [if_neg h2n]
        unfold nlRunsAux
        rw [if_pos rfl, Bool.and_eq_true]
        refine ⟨by rw [decide_eq_true_eq]; omega, ?_⟩
        have hmin : min n 2 + 1 = min (n + 1) 2 := by omega
        rw [hmin]
        apply ih (n + 1) true ⟨fun _ => by omega, fun _ => rfl⟩
        · intro hn1
          have hn0 : n = 0 := by omega
          have hprev : prev = false := by
            cases hpv : prev with
            | true => exact absurd (hp.mp hpv) (by omega)
            | false => rfl
          have hkeep := hiso.1
          rw [hprev, Bool.false_or] at hkeep
          simpa using hkeep
        · exact hiso.2
    · rw [if_neg hc]
      unfold noIsoAux at hiso
      rw [if_neg hc] at hiso
      unfold nlRunsAux
      rw [if_neg hc, Bool.and_eq_true]
      constructor
      · rw [decide_eq_true_eq]
        rcases Nat.lt_or_ge n 1 with hn | hn
        · left; omega
        · rcases Nat.lt_or_ge n 2 with hn' | hn'
          · have hone : n = 1 := by omega
            have hh := h1 hone
            simp only [List.head?_cons, Option.some.injEq] at hh
            exact absurd hh hc
          · right; omega
      · have h0 : (0 : Nat) = min 0 2 := rfl
        rw [h0]
        apply ih 0 false ⟨fun hh => absurd hh (by decide), fun hh => by omega⟩
          (fun hh => by omega)
        exact hiso

lemma collapseNl_paragraphs (l : List Char) (h : noIsolatedNl l = true) :
    paragraphBreaksOnly (collapseNl l) = true := by
  unfold paragraphBreaksOnly collapseNl
  have := cnAux_runs l 0 false
    ⟨fun hh => absurd hh (by decide), fun hh => by omega⟩ (fun hh => by omega) h
  simpa using this

/-- The newline-run checker is invariant under any character map that
preserves and reflects the newline. -/
lemma nlRunsAux_map (f : Char → Char) (hf : ∀ c, f c = '\n' ↔ c = '\n') :
    ∀ (l : List Char) (k : Nat), nlRunsAux k (l.map f) = nlRunsAux k l := by
  intro l
  induction l with
  | nil => intro k; rfl
  | cons c rest ih =>
    intro k
    rw [List.map_cons]
    unfold nlRunsAux
    by_cases hc : c = '\n'
    · rw [if_pos hc, if_pos ((hf c).mpr hc), ih]
    · rw [if_neg hc, if_neg (fun hh => hc ((hf c).mp hh)), ih]

lemma normalizeQuote_nl (c : Char) : normalizeQuote c = '\n' ↔ c = '\n' := by
  unfold normalizeQuote
  split_ifs with h1 h2
  · exact iff_of_false (by decide) (fun h => absurd (h ▸ h1) (by decide))
  · exact iff_of_false (by decide) (fun h => absurd (h ▸ h2) (by decide))
  · exact Iff.rfl

/-- Collapsing space runs preserves the newline-run structure: every space
run keeps at least one space, so no two newlines become adjacent and no
separation is lost. -/
lemma csAux_runs : ∀ (l : List Char) (prev : Bool) (k : Nat),
    (prev = true → k = 0) → nlRunsAux k l = true →
    nlRunsAux k (csAux prev l) = true := by
  intro l
  induction l with
  | nil => intro prev k _ h; exact h
  | cons c rest ih =>
    intro prev k hpk h
    unfold csAux
    by_cases hc : c = ' '
    · rw [if_pos hc]
      have hcn : ¬(c = '\n') := by rw [hc]; decide
      unfold nlRunsAux at h
      rw [if_neg hcn, Bool.and_eq_true] at h
      by_cases hp : prev
      · rw [if_pos hp, List.nil_append, hpk hp]
        exact ih true 0 (fun _ => rfl) h.2
      · rw [if_neg hp, List.singleton_append]
        unfold nlRunsAux
        rw [if_neg (by decide : ¬(' ' = '\n')), Bool.and_eq_true]
        exact ⟨h.1, ih true 0 (fun _ => rfl) h.2⟩
    · rw [if_neg hc]
      by_cases hcn : c = '\n'
      · unfold nlRunsAux at h ⊢
        rw [if_pos hcn, Bool.and_eq_true] at h ⊢
        exact ⟨h.1, ih false (k + 1) (fun hh => absurd hh (by decide)) h.2⟩
      · unfold nlRunsAux at h ⊢
        rw [if_neg hcn, Bool.and_eq_true] at h ⊢
        exact ⟨h.1, ih false 0 (fun hh => absurd hh (by decide)) h.2⟩

lemma nlRunsAux_dropWhile : ∀ (l : List Char) (k : Nat),
    nlRunsAux k l = true → nlRunsAux 0 (l.dropWhile pyIsSpace) = true := by
  intro l
  induction l with
  | nil => intro k _; decide
  | cons c rest ih =>
    intro k h
    rw [List.dropWhile_cons]
    by_cases hs : pyIsSpace c = true
    · rw [if_pos hs]
      unfold nlRunsAux at h
      by_cases hc : c = '\n'
      · rw [if_pos hc, Bool.and_eq_true] at h
        exact ih (k + 1) h.2
      · rw [if_neg hc, Bool.and_eq_true] at h
        exact ih 0 h.2
    · rw [if_neg hs]
      have hcn : ¬(c = '\n') := by
        intro hh
        rw [hh] at hs
        exact hs (by decide)
      unfold nlRunsAux at h ⊢
      rw [if_neg hcn, Bool.and_eq_true] at h
      rw [if_neg hcn, Bool.and_eq_true]
      exact ⟨by decide, h.2⟩

lemma dropWhile_cons_head {p : Char → Bool} : ∀ (x : List Char) (c : Char)
    (t : List Char), x.dropWhile p = c :: t → p c = false := by
  intro x
  induction x with
  | nil => intro c t h; cases h
  | cons a as ih =>
    intro c t h
    rw [List.dropWhile_cons] at h
    by_cases hp : p a = true
    · rw [if_pos hp] at h
      exact ih c t h
    · rw [if_neg hp] at h
      injection h with h1 _
      rw [← h1]
      cases hpa : p a with
      | true => exact absurd hpa hp
      | false => rfl

/-- A prefix that ends in a non-whitespace character inherits the
newline-run property from the whole string: the trailing run boundary at the
cut is a non-newline character. -/
lemma nlRunsAux_prefix : ∀ (m w : List Char) (k : Nat) (d : Char),
    m.getLast? = some d → pyIsSpace d = false →
    nlRunsAux k (m ++ w) = true → nlRunsAux k m = true := by
  intro m
  induction m with
  | nil => intro w k d hd _ _; cases hd
  | cons c rest ih =>
    intro w k d hd hdn h
    cases hr : rest with
    | nil =>
      subst hr
      have hcd : c = d := by simpa using hd
      have hcn : ¬(c = '\n') := by
        intro hh
        rw [hcd] at hh
        rw [hh] at hdn
        exact absurd hdn (by decide)
      rw [List.singleton_append] at h
      unfold nlRunsAux at h ⊢
      rw [if_neg hcn, Bool.and_eq_true] at h
      rw [if_neg hcn, Bool.and_eq_true]
      exact ⟨h.1, by decide⟩
    | cons e t =>
      have hd' : rest.getLast? = some d := by
        rw [hr]
        rw [hr, List.getLast?_cons_cons] at hd
        exact hd
      rw [← hr]
      rw [List.cons_append] at h
      unfold nlRunsAux at h ⊢
      by_cases hc : c = '\n'
      · rw [if_pos hc, Bool.and_eq_true] at h ⊢
        exact ⟨h.1, ih w (k + 1) d hd' hdn h.2⟩
      · rw [if_neg hc, Bool.and_eq_true] at h ⊢
        exact ⟨h.1, ih w 0 d hd' hdn h.2⟩

lemma pyStrip_paragraphs (l : List Char) (h : paragraphBreaksOnly l = true) :
    paragraphBreaksOnly (pyStrip l) = true := by
  unfold paragraphBreaksOnly at h ⊢
  unfold pyStrip
  have h1 : nlRunsAux 0 (l.dropWhile pyIsSpace) = true :=
    nlRunsAux_dropWhile l 0 h
  cases hrd : (l.dropWhile pyIsSpace).reverse.dropWhile pyIsSpace with
  | nil =>
    decide
  | cons c t =>
    have hc : pyIsSpace c = false :=
      dropWhile_cons_head (l.dropWhile pyIsSpace).reverse c t hrd
    have hsplit : l.dropWhile pyIsSpace =
        (c :: t).reverse ++
          ((l.dropWhile pyIsSpace).reverse.takeWhile pyIsSpace).reverse := by
      conv_lhs => rw [← List.reverse_reverse (l.dropWhile pyIsSpace)]
      conv_lhs =>
        rw [← List.takeWhile_append_dropWhile (p := pyIsSpace)
          (l := (l.dropWhile pyIsSpace).reverse)]
      rw [List.reverse_append, hrd]
    have hlast : ((c :: t).reverse).getLast? = some c := by
      rw [List.getLast?_reverse]
      rfl
    have h2 : nlRunsAux 0 ((c :: t).reverse) = true := by
      apply nlRunsAux_prefix ((c :: t).reverse) _ 0 c hlast hc
      rw [← hsplit]
      exact h1
    exact h2

lemma clean_text_chars (s : List Char) :
    ∀ c ∈ clean_text s, printableAscii c = true ∨ c = '\n' := by
  intro c hc
  unfold clean_text at hc
  have h1 := mem_pyStrip hc
  unfold collapseSpaces at h1
  have h2 := mem_csAux _ _ h1
  exact mem_toPrintable h2

lemma clean_text_paragraphs (s : List Char) :
    paragraphBreaksOnly (clean_text s) = true := by
  unfold clean_text
  apply pyStrip_paragraphs
  unfold paragraphBreaksOnly collapseSpaces
  apply csAux_runs _ false 0 (fun hh => absurd hh (by decide))
  unfold toPrintable
  rw [nlRunsAux_map _ (by
    intro c
    by_cases hpc : (printableAscii c || c == '\n') = true
    · rw [if_pos hpc]
    · rw [if_neg hpc]
      constructor
      · intro hh
        exact absurd hh (by decide)
      · intro hh
        exact absurd (by rw [hh]; rfl : (printableAscii c || c == '\n') = true) hpc)]
  unfold normalizeQuotes
  rw [nlRunsAux_map normalizeQuote normalizeQuote_nl]
  have := collapseNl_paragraphs (joinSingleNl
    (subHyphenNl (joinNl ((pySplitlines s).filterMap processLine))))
    (by
      unfold noIsolatedNl joinSingleNl
      exact jsn_noIso _ false false (fun h => h)
        (fun hff => absurd hff (by decide)))
  unfold paragraphBreaksOnly at this
  exact this

/-- C8: for every input, the output of `clean_text` contains only printable
ASCII characters and newlines, and every newline it contains is part of an
exactly-double newline paragraph break (no isolated newlines, no runs of
three or more). -/
theorem clean_text_printable_paragraphs (s : List Char) :
    (∀ c ∈ clean_text s, printableAscii c = true ∨ c = '\n') ∧
      paragraphBreaksOnly (clean_text s) = true :=
  ⟨clean_text_chars s, clean_text_paragraphs s⟩

/-- C8 witness: evaluated on a concrete two-line input. -/
theorem clean_text_printable_paragraphs_witness :
    (printableAscii 'H' = true ∨ 'H' = '\n') ∧
      paragraphBreaksOnly (clean_text "Hi\nthere".toList) = true :=
  ⟨(clean_text_printable_paragraphs "Hi\nthere".toList).1 'H' (by decide),
    (clean_text_printable_paragraphs "Hi\nthere".toList).2⟩

lemma filterMap_processLine_id : ∀ (ls : List (List Char)),
    (∀ l ∈ ls, processLine l = some l) → ls.filterMap processLine = ls := by
  intro ls
  induction ls with
  | nil => intro _; rfl
  | cons a rest ih =>
    intro h
    rw [List.filterMap_cons, h a (List.mem_cons_self a rest),
      ih (fun l hl => h l (List.mem_cons_of_mem a hl))]

lemma joinNl_cons_cons (a b : List Char) (ls : List (List Char)) :
    joinNl (a :: b :: ls) = a ++ '\n' :: joinNl (b :: ls) := rfl

lemma joinNl_head_cons (c : Char) (l : List Char) (ls : List (List Char)) :
    joinNl ((c :: l) :: ls) = c :: joinNl (l :: ls) := by
  cases ls with
  | nil => rfl
  | cons b bs => rfl

lemma pySplitlines_ne_nil : ∀ (l : List Char), l ≠ [] → pySplitlines l ≠ [] := by
  intro l hl
  cases l with
  | nil => exact absurd rfl hl
  | cons c rest =>
    unfold pySplitlines
    split
    next heq => exact absurd heq (List.cons_ne_nil _ _)
    next r heq => exact List.cons_ne_nil _ _
    next x c2 rest2 hno heq =>
      split
      · exact List.cons_ne_nil _ _
      · split
        · exact List.cons_ne_nil _ _
        · exact List.cons_ne_nil _ _

lemma pySplitlines_cons_nl (rest : List Char) :
    pySplitlines ('\n' :: rest) = [] :: pySplitlines rest := rfl

lemma printable_not_break {c : Char} (h : printableAscii c = true) :
    isLineBreak c = false := by
  unfold printableAscii at h
  simp only [Bool.and_eq_true, decide_eq_true_eq] at h
  cases hb : isLineBreak c with
  | false => rfl
  | true =>
    exfalso
    unfold isLineBreak at hb
    simp only [Bool.or_eq_true, beq_iff_eq] at hb
    omega

lemma pySplitlines_cons_other (c : Char) (rest : List Char)
    (hc : isLineBreak c = false) :
    pySplitlines (c :: rest) =
      match pySplitlines rest with
      | [] => [[c]]
      | l :: ls => (c :: l) :: ls := by
  have hr : c ≠ '\r' := by
    intro h
    rw [h] at hc
    exact absurd hc (by decide)
  conv_lhs => unfold pySplitlines
  split
  next heq => exact absurd heq (List.cons_ne_nil _ _)
  next r heq =>
    injection heq with h1 _
    exact absurd h1 hr
  next x c2 rest2 hno heq =>
    injection heq with h1 h2
    subst h1
    subst h2
    rw [if_neg (by rw [hc]; exact fun hh => absurd hh (by decide))]

lemma joinNl_pySplitlines : ∀ (t : List Char),
    (∀ c ∈ t, printableAscii c = true ∨ c = '\n') →
    t.getLast? ≠ some '\n' → joinNl (pySplitlines t) = t := by
  intro t
  induction t with
  | nil => intro _ _; rfl
  | cons c rest ih =>
    intro hchars hlast
    by_cases hc : c = '\n'
    · subst hc
      rw [pySplitlines_cons_nl]
      cases hr : rest with
      | nil =>
        subst hr
        exact absurd rfl hlast
      | cons e t2 =>
        rw [← hr]
        have hrest : rest ≠ [] := by rw [hr]; exact List.cons_ne_nil e t2
        cases hps : pySplitlines rest with
        | nil => exact absurd hps (pySplitlines_ne_nil rest hrest)
        | cons l ls =>
          rw [joinNl_cons_cons, List.nil_append, ← hps]
          rw [ih (fun d hd => hchars d (List.mem_cons_of_mem _ hd))
            (by rw [hr] at hlast ⊢
                rw [List.getLast?_cons_cons] at hlast
                exact hlast)]
    · have hcp : printableAscii c = true := by
        rcases hchars c (List.mem_cons_self c rest) with h | h
        · exact h
        · exact absurd h hc
      rw [pySplitlines_cons_other c rest (printable_not_break hcp)]
      cases hps : pySplitlines rest with
      | nil =>
        have hrest : rest = [] := by
          by_contra hne
          exact absurd hps (pySplitlines_ne_nil rest hne)
        subst hrest
        rfl
      | cons l ls =>
        have hrest : rest ≠ [] := by
          intro hh
          rw [hh] at hps
          cases hps
        rw [joinNl_head_cons, ← hps]
        congr 1
        apply ih (fun d hd => hchars d (List.mem_cons_of_mem _ hd))
        cases hr : rest with
        | nil => exact absurd hr hrest
        | cons e t2 =>
          rw [hr] at hlast
          rw [List.getLast?_cons_cons] at hlast
          exact hlast

lemma subHyphenNl_cons (c : Char) (rest : List Char)
    (h : ¬(c = '-' ∧ rest.head? = some '\n')) :
    subHyphenNl (c :: rest) = c :: subHyphenNl rest := by
  conv_lhs => unfold subHyphenNl
  split
  next r heq =>
    injection heq with h1 h2
    exact absurd ⟨h1, by rw [h2]; rfl⟩ h
  next x c2 rest2 hno heq =>
    injection heq with h1 h2
    subst h1
    subst h2
    rfl
  next x heq => exact absurd heq (List.cons_ne_nil _ _)

lemma subHyphen_id : ∀ (l : List Char) (b : Bool),
    nhAux b l = true → subHyphenNl l = l := by
  intro l
  induction l with
  | nil => intro b _; rfl
  | cons c rest ih =>
    intro b h
    unfold nhAux at h
    by_cases hcb : (decide (c = '\n') && b) = true
    · rw [if_pos hcb] at h
      exact absurd h (by decide)
    · rw [if_neg hcb] at h
      have hnot : ¬(c = '-' ∧ rest.head? = some '\n') := by
        rintro ⟨rfl, hh⟩
        cases hre : rest with
        | nil => rw [hre] at hh; cases hh
        | cons e r2 =>
          have he : e = '\n' := by rw [hre] at hh; simpa using hh
          rw [hre, he] at h
          unfold nhAux at h
          rw [if_pos (by rw [decide_eq_true rfl]; rfl)] at h
          exact absurd h (by decide)
      rw [subHyphenNl_cons c rest hnot, ih (c == '-') h]

lemma nlRunsAux_one_head : ∀ (l : List Char),
    nlRunsAux 1 l = true → l.head? = some '\n' := by
  intro l h
  cases l with
  | nil => exact absurd h (by decide)
  | cons c rest =>
    by_cases hc : c = '\n'
    · rw [hc]; rfl
    · unfold nlRunsAux at h
      rw [if_neg hc, Bool.and_eq_true] at h
      exact absurd h.1 (by decide)

lemma jsn_id : ∀ (l : List Char) (k : Nat) (prev : Bool),
    (prev = true ↔ 1 ≤ k) → nlRunsAux k l = true → jsnAux prev l = l := by
  intro l
  induction l with
  | nil => intro k prev _ _; rfl
  | cons c rest ih =>
    intro k prev hp h
    unfold jsnAux
    by_cases hc : c = '\n'
    · rw [if_pos hc]
      subst hc
      unfold nlRunsAux at h
      rw [if_pos rfl, Bool.and_eq_true, decide_eq_true_eq] at h
      have hkeep : (prev || rest.head? == some '\n') = true := by
        rcases Nat.eq_zero_or_pos k with hk0 | hkpos
        · subst hk0
          have hh := nlRunsAux_one_head rest h.2
          rw [Bool.or_eq_true]
          right
          rw [hh]
          rfl
        · rw [hp.mpr hkpos, Bool.true_or]
      rw [if_pos hkeep]
      congr 1
      exact ih (k + 1) true ⟨fun _ => by omega, fun _ => rfl⟩ h.2
    · rw [if_neg hc]
      unfold nlRunsAux at h
      rw [if_neg hc, Bool.and_eq_true] at h
      congr 1
      exact ih 0 false ⟨fun hh => absurd hh (by decide), fun hh => by omega⟩ h.2

lemma cn_id : ∀ (l : List Char) (n : Nat),
    nlRunsAux n l = true → cnAux n l = l := by
  intro l
  induction l with
  | nil => intro n _; rfl
  | cons c rest ih =>
    intro n h
    unfold cnAux
    by_cases hc : c = '\n'
    · rw [if_pos hc]
      subst hc
      unfold nlRunsAux at h
      rw [if_pos rfl, Bool.and_eq_true, decide_eq_true_eq] at h
      rw [if_neg (by omega : ¬2 ≤ n)]
      congr 1
      exact ih (n + 1) h.2
    · rw [if_neg hc]
      unfold nlRunsAux at h
      rw [if_neg hc, Bool.and_eq_true] at h
      congr 1
      exact ih 0 h.2

lemma normalizeQuotes_id (t : List Char)
    (h : ∀ c ∈ t, printableAscii c = true ∨ c = '\n') :
    normalizeQuotes t = t := by
  unfold normalizeQuotes
  have hpt : ∀ c ∈ t, normalizeQuote c = c := by
    intro c hc
    unfold normalizeQuote
    have hn : c.toNat ≤ 0x7E ∨ c = '\n' := by
      rcases h c hc with hp | hp
      · unfold printableAscii at hp
        simp only [Bool.and_eq_true, decide_eq_true_eq] at hp
        exact Or.inl hp.2
      · exact Or.inr hp
    have hb : c.toNat ≤ 0x7E := by
      rcases hn with hn | hn
      · exact hn
      · rw [hn]; decide
    rw [if_neg, if_neg]
    · simp only [Bool.or_eq_true, beq_iff_eq]
      omega
    · simp only [Bool.or_eq_true, beq_iff_eq]
      omega
  exact (List.map_congr_left hpt).trans (List.map_id t)

lemma toPrintable_id (t : List Char)
    (h : ∀ c ∈ t, printableAscii c = true ∨ c = '\n') :
    toPrintable t = t := by
  unfold toPrintable
  have hpt : ∀ c ∈ t,
      (if printableAscii c || c == '\n' then c else ' ') = c := by
    intro c hc
    rw [if_pos]
    rcases h c hc with hp | hp
    · rw [hp, Bool.true_or]
    · rw [hp]
      rfl
  exact (List.map_congr_left hpt).trans (List.map_id t)

lemma ntsAux_csAux : ∀ (l : List Char) (b : Bool),
    ntsAux b (csAux b l) = true := by
  intro l
  induction l with
  | nil => intro b; rfl
  | cons c rest ih =>
    intro b
    unfold csAux
    by_cases hc : c = ' '
    · rw [if_pos hc]
      by_cases hb : b = true

      · rw [if_pos hb, List.nil_append, hb]
        exact ih true
      · rw [if_neg hb, List.singleton_append]
        unfold ntsAux
        rw [if_pos rfl, Bool.and_eq_true]
        constructor
        · rw [Bool.not_eq_true] at hb
          rw [hb]
          rfl
        · exact ih true
    · rw [if_neg hc]
      unfold ntsAux
      rw [if_neg hc]
      exact ih false

lemma ntsAux_weaken : ∀ (l : List Char),
    ntsAux true l = true → ntsAux false l = true := by
  intro l h
  cases l with
  | nil => rfl
  | cons c rest =>
    unfold ntsAux at h ⊢
    by_cases hc : c = ' '
    · rw [if_pos hc, Bool.and_eq_true] at h
      exact absurd h.1 (by decide)
    · rw [if_neg hc] at h ⊢
      exact h

lemma ntsAux_append_right : ∀ (m suf : List Char) (b : Bool),
    ntsAux b (m ++ suf) = true → ntsAux b m = true := by
  intro m
  induction m with
  | nil => intro suf b _; rfl
  | cons c rest ih =>
    intro suf b h
    rw [List.cons_append] at h
    unfold ntsAux at h ⊢
    by_cases hc : c = ' '
    · rw [if_pos hc, Bool.and_eq_true] at h ⊢
      exact ⟨h.1, ih suf true h.2⟩
    · rw [if_neg hc] at h ⊢
      exact ih suf false h

lemma ntsAux_append_left : ∀ (pre rest : List Char) (b : Bool),
    ntsAux b (pre ++ rest) = true → ntsAux false rest = true := by
  intro pre
  induction pre with
  | nil =>
    intro rest b h
    cases b with
    | false => exact h
    | true => exact ntsAux_weaken rest h
  | cons c pre' ih =>
    intro rest b h
    rw [List.cons_append] at h
    unfold ntsAux at h
    by_cases hc : c = ' '
    · rw [if_pos hc, Bool.and_eq_true] at h
      exact ih rest true h.2
    · rw [if_neg hc] at h
      exact ih rest false h

lemma cs_id : ∀ (l : List Char) (b : Bool),
    ntsAux b l = true → csAux b l = l := by
  intro l
  induction l with
  | nil => intro b _; rfl
  | cons c rest ih =>
    intro b h
    unfold ntsAux at h
    unfold csAux
    by_cases hc : c = ' '
    · subst hc
      rw [if_pos rfl] at h ⊢
      rw [Bool.and_eq_true] at h
      have hb : b = false := by
        cases hbv : b with
        | false => rfl
        | true => rw [hbv] at h; exact absurd h.1 (by decide)
      rw [hb]
      rw [if_neg (by decide : ¬(false = true))]
      rw [List.singleton_append]
      congr 1
      exact ih true h.2
    · rw [if_neg hc] at h ⊢
      congr 1
      exact ih false h

lemma dropWhile_dropWhile (p : Char → Bool) (x : List Char) :
    (x.dropWhile p).dropWhile p = x.dropWhile p := by
  cases hd : x.dropWhile p with
  | nil => rfl
  | cons c t =>
    have hc := dropWhile_cons_head x c t hd
    rw [List.dropWhile_cons,
      if_neg (fun hh => absurd (hc.symm.trans hh) (by decide))]

lemma pyStrip_split (y : List Char) :
    y = y.takeWhile pyIsSpace ++ pyStrip y ++
      ((y.dropWhile pyIsSpace).reverse.takeWhile pyIsSpace).reverse := by
  unfold pyStrip
  rw [List.append_assoc]
  conv_lhs => rw [← List.takeWhile_append_dropWhile (p := pyIsSpace) (l := y)]
  congr 1
  conv_lhs => rw [← List.reverse_reverse (y.dropWhile pyIsSpace),
    ← List.takeWhile_append_dropWhile (p := pyIsSpace)
      (l := (y.dropWhile pyIsSpace).reverse)]
  rw [List.reverse_append]

lemma pyStrip_head_drop (y : List Char) :
    (pyStrip y).dropWhile pyIsSpace = pyStrip y := by
  unfold pyStrip
  cases hd : (y.dropWhile pyIsSpace).reverse.dropWhile pyIsSpace with
  | nil => rfl
  | cons c t =>
    obtain ⟨pre, hpre⟩ :=
      List.dropWhile_suffix (l := (y.dropWhile pyIsSpace).reverse) (p := pyIsSpace)
    rw [hd] at hpre
    have hrev : y.dropWhile pyIsSpace = (c :: t).reverse ++ pre.reverse := by
      have h2 := congrArg List.reverse hpre
      rw [List.reverse_append, List.reverse_reverse] at h2
      exact h2.symm
    cases hcr : (c :: t).reverse with
    | nil =>
      exfalso
      have := congrArg List.length hcr
      simp at this
    | cons h0 rr =>
      rw [hcr] at hrev
      rw [List.cons_append] at hrev
      have hh0 := dropWhile_cons_head y h0 _ hrev
      rw [List.dropWhile_cons,
        if_neg (fun hh => absurd (hh0.symm.trans hh) (by decide))]

lemma pyStrip_idem (y : List Char) : pyStrip (pyStrip y) = pyStrip y := by
  have h1 : (pyStrip y).dropWhile pyIsSpace = pyStrip y := pyStrip_head_drop y
  have h2 : (pyStrip y).reverse =
      (y.dropWhile pyIsSpace).reverse.dropWhile pyIsSpace := by
    unfold pyStrip
    rw [List.reverse_reverse]
  show (((pyStrip y).dropWhile pyIsSpace).reverse.dropWhile pyIsSpace).reverse =
    pyStrip y
  rw [h1, h2, dropWhile_dropWhile, ← h2, List.reverse_reverse]

lemma pyStrip_getLast_not_space (y : List Char) (d : Char)
    (h : (pyStrip y).getLast? = some d) : pyIsSpace d = false := by
  unfold pyStrip at h
  rw [List.getLast?_reverse] at h
  cases hd : (y.dropWhile pyIsSpace).reverse.dropWhile pyIsSpace with
  | nil => rw [hd] at h; cases h
  | cons c t =>
    rw [hd] at h
    have hcd : c = d := by simpa using h
    rw [← hcd]
    exact dropWhile_cons_head _ c t hd

/-- C2 counterexample: `clean_text` is not idempotent.  On the input below
the first pass keeps the line `x--` (length 3) and the hyphenation repair
shortens it to `x-`, leaving `x-\n\ne`; the second pass drops the line `x-`
(length 2, ending in a non-alphabetic character), yielding `e`. -/
theorem clean_text_not_idempotent :
    clean_text (clean_text "x--\n\n\ne".toList) ≠
      clean_text "x--\n\n\ne".toList := by
  decide

/-- C2 as amended: `clean_text` is idempotent on every input whose cleaned
output is stable under the per-line phase — every line of the output passes
the per-line filter unchanged — and contains no hyphen immediately before a
newline.  (The other pipeline stages are always no-ops on cleaned output:
it is printable-ASCII with exactly-double newline runs, has no double
spaces, and is stripped.) -/
theorem clean_text_idempotent_on_stable_output (s : List Char)
    (hlines : ∀ l ∈ pySplitlines (clean_text s), processLine l = some l)
    (hhyph : noHyphenNl (clean_text s) = true) :
    clean_text (clean_text s) = clean_text s := by
  have hchars := clean_text_chars s
  have hruns : nlRunsAux 0 (clean_text s) = true := clean_text_paragraphs s
  obtain ⟨w, hw⟩ : ∃ w, clean_text s = pyStrip (collapseSpaces w) := ⟨_, rfl⟩
  have hlast : (clean_text s).getLast? ≠ some '\n' := by
    intro hl
    rw [hw] at hl
    exact absurd (pyStrip_getLast_not_space (collapseSpaces w) '\n' hl)
      (by decide)
  show pyStrip (collapseSpaces (toPrintable (normalizeQuotes (collapseNl
    (joinSingleNl (subHyphenNl (joinNl ((pySplitlines (clean_text s)).filterMap
      processLine)))))))) = clean_text s
  rw [filterMap_processLine_id _ hlines]
  rw [joinNl_pySplitlines (clean_text s) hchars hlast]
  rw [subHyphen_id (clean_text s) false hhyph]
  rw [show joinSingleNl (clean_text s) = jsnAux false (clean_text s) from rfl]
  rw [jsn_id (clean_text s) 0 false
    ⟨fun hh => absurd hh (by decide), fun hh => by omega⟩ hruns]
  rw [show collapseNl (clean_text s) = cnAux 0 (clean_text s) from rfl]
  rw [cn_id (clean_text s) 0 hruns]
  rw [normalizeQuotes_id (clean_text s) hchars]
  rw [toPrintable_id (clean_text s) hchars]
  have hnts : ntsAux false (clean_text s) = true := by
    have hz : ntsAux false (collapseSpaces w) = true := ntsAux_csAux w false
    have hsp := pyStrip_split (collapseSpaces w)
    rw [hsp] at hz
    have h1 := ntsAux_append_right _ _ false hz
    have h2 := ntsAux_append_left _ _ false h1
    rw [hw]
    exact h2
  rw [show collapseSpaces (clean_text s) = csAux false (clean_text s) from rfl]
  rw [cs_id (clean_text s) false hnts]
  rw [hw]
  exact pyStrip_idem (collapseSpaces w)

/-- C2 witness: on a plain sentence the hypotheses hold by evaluation and
re-cleaning is the identity. -/
theorem clean_text_idempotent_witness :
    clean_text (clean_text "Hello world.".toList) =
      clean_text "Hello world.".toList :=
  clean_text_idempotent_on_stable_output "Hello world.".toList (by decide)
    (by decide)

end PdfToAudiobook
